import Mathlib

/-!
Shallow embedding of the markdown-to-Notion-blocks converter
(src: markdown converter module with splitRichText, parseInlineFormatting,
collectNestedListItems, markdownToNotionBlocks).

Strings are modelled as lists of characters.  JS regular-expression
matching is modelled by explicit scanning functions that mirror the
engine's leftmost-position, ordered-alternation, lazy-quantifier
semantics.  The JS while-loops are modelled with an explicit fuel
argument returning Option: a none result corresponds to loop
non-termination, so totality of the source is a theorem (fuel adequacy),
not an assumption.
-/

/-- Notion API limit: max characters per rich_text element
(constant NOTION_TEXT_LIMIT in the source). -/
def NOTION_TEXT_LIMIT : Nat := 2000

/-- Model of the JS whitespace class (used by String.prototype.trim and
the regex classes backslash-s / backslash-S). -/
def isJsWhitespace (c : Char) : Bool :=
  c = ' ' || c = '\t' || c = '\n' || c = '\r' || c = '\x0b' || c = '\x0c' ||
  c = ' ' || c = ' ' || c = ' ' || c = '﻿'

/-- Model of JS String.prototype.trim on a character list. -/
def trimChars (l : List Char) : List Char :=
  ((l.dropWhile isJsWhitespace).reverse.dropWhile isJsWhitespace).reverse

/-- Link target of a rich-text item (the text.link field). -/
structure NotionLink where
  url : List Char
deriving DecidableEq, Repr

/-- The annotations object of a NotionRichText item.  Fields are Option
valued because the TS type has optional properties: a field is some
exactly when the corresponding key is present on the object. -/
structure Annotations where
  bold : Option Bool
  italic : Option Bool
  strikethrough : Option Bool
  underline : Option Bool
  code : Option Bool
  color : Option (List Char)
deriving DecidableEq, Repr

/-- Number of keys present on the annotations object
(JS Object.keys(annotations).length). -/
def Annotations.keyCount (a : Annotations) : Nat :=
  (if a.bold.isSome then 1 else 0) +
  (if a.italic.isSome then 1 else 0) +
  (if a.strikethrough.isSome then 1 else 0) +
  (if a.underline.isSome then 1 else 0) +
  (if a.code.isSome then 1 else 0) +
  (if a.color.isSome then 1 else 0)

/-- Annotation object for a bold run, as built at the call site
splitRichText(match, \x7b bold: true \x7d). -/
def boldAnn : Annotations := ⟨some true, none, none, none, none, none⟩

/-- Annotation object for an italic run. -/
def italicAnn : Annotations := ⟨none, some true, none, none, none, none⟩

/-- Annotation object for a strikethrough run. -/
def strikeAnn : Annotations := ⟨none, none, some true, none, none, none⟩

/-- Annotation object for an inline-code run. -/
def codeAnn : Annotations := ⟨none, none, none, none, some true, none⟩

/-- A NotionRichText item: text content with optional link and optional
annotations object. -/
structure RichText where
  content : List Char
  link : Option NotionLink
  annotations : Option Annotations
deriving DecidableEq, Repr

/-- A Notion block object, as a closed discriminated union.  List items
carry their (possibly empty) children list; the source attaches the
children key only when the collected list is non-empty, which the empty
list models. -/
inductive NotionBlock where
  | heading1 (rich : List RichText)
  | heading2 (rich : List RichText)
  | heading3 (rich : List RichText)
  | divider
  | codeBlock (rich : List RichText) (language : List Char)
  | numberedListItem (rich : List RichText) (children : List NotionBlock)
  | bulletedListItem (rich : List RichText) (children : List NotionBlock)
  | paragraph (rich : List RichText)

/-- Chunking loop of splitRichText: the for-loop
`for (i = 0; i < content.length; i += NOTION_TEXT_LIMIT)` collecting
content.slice(i, i + NOTION_TEXT_LIMIT).  Fuel models loop termination. -/
def chunkAux : Nat → List Char → Option (List (List Char))
  | 0, _ => none
  | fuel + 1, l =>
    if l.isEmpty then some []
    else
      match chunkAux fuel (l.drop NOTION_TEXT_LIMIT) with
      | some rest => some (l.take NOTION_TEXT_LIMIT :: rest)
      | none => none

/-- Normalisation of the annotations argument as performed on each item:
the annotations key is set only when the argument is present and has at
least one key. -/
def normAnnots (annotations : Option Annotations) : Option Annotations :=
  match annotations with
  | some a => if 0 < a.keyCount then some a else none
  | none => none

/-- Model of splitRichText(content, annotations?, link?): splits text
content into chunks that respect the 2000-char limit, attaching link and
(non-empty) annotations to every chunk; empty content yields a single
bare empty run. -/
def splitRichText (content : List Char) (annotations : Option Annotations)
    (link : Option NotionLink) : Option (List RichText) :=
  if content.length = 0 then some [⟨[], none, none⟩]
  else
    match chunkAux (content.length + 1) content with
    | some chunks =>
      some (chunks.map fun chunk => ⟨chunk, link, normAnnots annotations⟩)
    | none => none

theorem chunkAux_isSome : ∀ (fuel : Nat) (l : List Char),
    l.length < fuel → (chunkAux fuel l).isSome := by
  intro fuel
  induction fuel with
  | zero => intro l h; omega
  | succ n ih =>
    intro l h
    rw [chunkAux]
    by_cases hl : l.isEmpty
    · simp [hl]
    · have hlen : 0 < l.length := by
        cases l with
        | nil => simp at hl
        | cons a t => simp
      have : (l.drop NOTION_TEXT_LIMIT).length < n := by
        rw [List.length_drop]
        have : 0 < NOTION_TEXT_LIMIT := by decide
        omega
      have hs := ih (l.drop NOTION_TEXT_LIMIT) this
      simp only [hl, if_false, Bool.false_eq_true]
      match hm : chunkAux n (l.drop NOTION_TEXT_LIMIT) with
      | some rest => simp
      | none => rw [hm] at hs; simp at hs

theorem chunkAux_join : ∀ (fuel : Nat) (l : List Char) (cs : List (List Char)),
    chunkAux fuel l = some cs →
    cs.flatten = l ∧ ∀ c ∈ cs, c.length ≤ NOTION_TEXT_LIMIT := by
  intro fuel
  induction fuel with
  | zero => intro l cs h; simp [chunkAux] at h
  | succ n ih =>
    intro l cs h
    rw [chunkAux] at h
    by_cases hl : l.isEmpty
    · simp [hl] at h
      subst h
      simp [List.isEmpty_iff.mp hl]
    · simp only [hl, if_false, Bool.false_eq_true] at h
      match hm : chunkAux n (l.drop NOTION_TEXT_LIMIT) with
      | some rest =>
        rw [hm] at h
        simp at h
        subst h
        obtain ⟨hj, hb⟩ := ih _ _ hm
        constructor
        · simp [hj, List.take_append_drop]
        · intro c hc
          simp at hc
          rcases hc with hc | hc
          · subst hc
            simp [List.length_take]
          · exact hb c hc
      | none => rw [hm] at h; simp at h

theorem chunkAux_ne_nil (fuel : Nat) (l : List Char) (cs : List (List Char))
    (hl : ¬ l.isEmpty) (h : chunkAux fuel l = some cs) : cs ≠ [] := by
  cases fuel with
  | zero => simp [chunkAux] at h
  | succ n =>
    rw [chunkAux] at h
    simp only [hl, if_false, Bool.false_eq_true] at h
    match hm : chunkAux n (l.drop NOTION_TEXT_LIMIT) with
    | some rest => rw [hm] at h; simp at h; subst h; simp
    | none => rw [hm] at h; simp at h

theorem splitRichText_isSome (content : List Char) (a : Option Annotations)
    (link : Option NotionLink) : (splitRichText content a link).isSome := by
  rw [splitRichText]
  by_cases hc : content.length = 0
  · simp [hc]
  · have := chunkAux_isSome (content.length + 1) content (by omega)
    simp only [hc, if_false]
    match hm : chunkAux (content.length + 1) content with
    | some chunks => simp
    | none => rw [hm] at this; simp at this

theorem splitRichText_join (content : List Char) (a : Option Annotations)
    (link : Option NotionLink) (rs : List RichText)
    (h : splitRichText content a link = some rs) :
    (rs.map RichText.content).flatten = content ∧
      ∀ r ∈ rs, r.content.length ≤ NOTION_TEXT_LIMIT := by
  rw [splitRichText] at h
  by_cases hc : content.length = 0
  · simp [hc] at h
    subst h
    simp [List.length_eq_zero.mp hc]
  · simp only [hc, if_false] at h
    match hm : chunkAux (content.length + 1) content with
    | some chunks =>
      rw [hm] at h; simp at h; subst h
      obtain ⟨hj, hb⟩ := chunkAux_join _ _ _ hm
      constructor
      · simpa [Function.comp_def] using hj
      · intro r hr
        simp at hr
        obtain ⟨c, hc1, hc2⟩ := hr
        subst hc2
        exact hb c hc1
    | none => rw [hm] at h; simp at h

theorem splitRichText_meta (content : List Char) (a : Option Annotations)
    (link : Option NotionLink) (rs : List RichText)
    (hc : content ≠ []) (h : splitRichText content a link = some rs) :
    ∀ r ∈ rs, r.link = link ∧ r.annotations = normAnnots a := by
  rw [splitRichText] at h
  have hc0 : ¬ content.length = 0 := by simpa using hc
  simp only [hc0, if_false] at h
  match hm : chunkAux (content.length + 1) content with
  | some chunks =>
    rw [hm] at h; simp at h; subst h
    intro r hr
    simp at hr
    obtain ⟨c, _, hc2⟩ := hr
    subst hc2
    exact ⟨rfl, rfl⟩
  | none => rw [hm] at h; simp at h

theorem splitRichText_ne_nil (content : List Char) (a : Option Annotations)
    (link : Option NotionLink) (rs : List RichText)
    (h : splitRichText content a link = some rs) : rs ≠ [] := by
  rw [splitRichText] at h
  by_cases hc : content.length = 0
  · simp [hc] at h; subst h; simp
  · simp only [hc, if_false] at h
    match hm : chunkAux (content.length + 1) content with
    | some chunks =>
      rw [hm] at h; simp at h; subst h
      have : chunks ≠ [] := by
        refine chunkAux_ne_nil _ _ _ ?_ hm
        cases content with
        | nil => simp at hc
        | cons a t => simp
      simpa using this
    | none => rw [hm] at h; simp at h

/-- The backtick character (written via a string literal). -/
def btick : Char := ("`".toList).getD 0 ' '

/-- Lazy capture for a pattern fragment (.+?) followed by a literal
closing delimiter: captures the shortest non-empty run of
non-newline characters after which the closing delimiter occurs, and
returns the capture together with the text following the delimiter.
Models the lazy-quantifier-with-backtracking semantics of the JS
engine for fragments such as in the bold alternative. -/
def lazyCapture (close : List Char) : List Char → Option (List Char × List Char)
  | [] => none
  | c :: rest =>
    if c = '\n' then none
    else if close.isPrefixOf rest then some ([c], rest.drop close.length)
    else
      match lazyCapture close rest with
      | some (cap, r) => some (c :: cap, r)
      | none => none

/-- Attempt to close the group-1 capture of the markdown-link
alternative at the current point: requires the two-character closer
(closing bracket then opening parenthesis) followed by a successful
lazy group-2 capture closed by a closing parenthesis. -/
def closeAttempt (rest : List Char) : Option (List Char × List Char) :=
  match rest with
  | r1 :: r2 :: rest2 =>
    if r1 = ']' ∧ r2 = '(' then lazyCapture [')'] rest2 else none
  | _ => none

/-- Backtracking body of the markdown-link alternative after the opening
bracket: finds the shortest non-empty group-1 capture of non-newline
characters at which closeAttempt succeeds, extending the capture one
character at a time on failure (regex backtracking).
Returns (link text, url, rest). -/
def linkGo : List Char → Option (List Char × List Char × List Char)
  | [] => none
  | c :: rest =>
    if c = '\n' then none
    else
      match closeAttempt rest with
      | some (cap2, rest3) => some ([c], cap2, rest3)
      | none =>
        match linkGo rest with
        | some (cap1, cap2, r) => some (c :: cap1, cap2, r)
        | none => none

/-- The bold alternative: two asterisks, lazy capture, two asterisks. -/
def matchBold (s : List Char) : Option (List Char × List Char) :=
  match s with
  | a :: b :: s2 => if a = '*' ∧ b = '*' then lazyCapture ['*', '*'] s2 else none
  | _ => none

/-- The strikethrough alternative: two tildes, lazy capture, two tildes. -/
def matchStrike (s : List Char) : Option (List Char × List Char) :=
  match s with
  | a :: b :: s2 => if a = '~' ∧ b = '~' then lazyCapture ['~', '~'] s2 else none
  | _ => none

/-- The inline-code alternative: backtick, lazy capture, backtick. -/
def matchICode (s : List Char) : Option (List Char × List Char) :=
  match s with
  | c :: s2 => if c = btick then lazyCapture [btick] s2 else none
  | [] => none

/-- The markdown-link alternative: open bracket then the backtracking
body. -/
def matchLink (s : List Char) : Option (List Char × List Char × List Char) :=
  match s with
  | a :: s2 => if a = '[' then linkGo s2 else none
  | [] => none

/-- The italic alternative: one asterisk, lazy capture, one asterisk. -/
def matchItalic (s : List Char) : Option (List Char × List Char) :=
  match s with
  | a :: s2 => if a = '*' then lazyCapture ['*'] s2 else none
  | [] => none

/-- The bare-URL alternative: an http or https scheme followed by a
maximal non-empty run of characters that are neither JS whitespace nor a
closing parenthesis. -/
def matchUrl (s : List Char) : Option (List Char × List Char) :=
  if ("https://".toList).isPrefixOf s then
    let rest := s.drop 8
    let body := rest.takeWhile fun c => !(isJsWhitespace c) && c ≠ ')'
    if body.isEmpty then none
    else some ("https://".toList ++ body, rest.drop body.length)
  else if ("http://".toList).isPrefixOf s then
    let rest := s.drop 7
    let body := rest.takeWhile fun c => !(isJsWhitespace c) && c ≠ ')'
    if body.isEmpty then none
    else some ("http://".toList ++ body, rest.drop body.length)
  else none

/-- Result of one successful regex-alternation match: which alternative
matched and its captures. -/
inductive InlineMatch where
  | bold (cap : List Char)
  | strike (cap : List Char)
  | icode (cap : List Char)
  | mdlink (txt url : List Char)
  | italic (cap : List Char)
  | bareUrl (u : List Char)

/-- Tries the six alternatives at the current position in the source's
fixed order: bold, strikethrough, inline code, markdown link, italic,
bare URL.  Returns the match and the remaining text after the match. -/
def tryAlternatives (s : List Char) : Option (InlineMatch × List Char) :=
  match matchBold s with
  | some (cap, r) => some (.bold cap, r)
  | none =>
    match matchStrike s with
    | some (cap, r) => some (.strike cap, r)
    | none =>
      match matchICode s with
      | some (cap, r) => some (.icode cap, r)
      | none =>
        match matchLink s with
        | some (t, u, r) => some (.mdlink t u, r)
        | none =>
          match matchItalic s with
          | some (cap, r) => some (.italic cap, r)
          | none =>
            match matchUrl s with
            | some (u, r) => some (.bareUrl u, r)
            | none => none

/-- Rich-text items pushed for one match, mirroring the if/else chain on
the capture groups: emphasis captures go through splitRichText with the
single corresponding flag; markdown links and bare URLs are pushed as
one item with a link and no splitting. -/
def renderMatch : InlineMatch → Option (List RichText)
  | .bold cap => splitRichText cap (some boldAnn) none
  | .strike cap => splitRichText cap (some strikeAnn) none
  | .icode cap => splitRichText cap (some codeAnn) none
  | .mdlink t u => some [⟨t, some ⟨u⟩, none⟩]
  | .italic cap => splitRichText cap (some italicAnn) none
  | .bareUrl u => some [⟨u, some ⟨u⟩, none⟩]

/-- Plain text accumulated between matches, pushed through splitRichText
when non-empty (the accumulator is kept reversed). -/
def flushPlain (plainRev : List Char) : Option (List RichText) :=
  if plainRev.isEmpty then some [] else splitRichText plainRev.reverse none none

/-- Main scan loop of parseInlineFormatting: at each position either one
alternative matches (the pending plain text is flushed, the match is
rendered, scanning resumes after it) or the current character is
appended to the pending plain text.  Fuel models loop termination. -/
def scanAux : Nat → List Char → List Char → Option (List RichText)
  | 0, _, _ => none
  | fuel + 1, plainRev, s =>
    match s with
    | [] => flushPlain plainRev
    | c :: rest =>
      match tryAlternatives s with
      | some (m, rest') =>
        (match flushPlain plainRev, renderMatch m, scanAux fuel [] rest' with
         | some flushed, some items, some tail => some (flushed ++ items ++ tail)
         | _, _, _ => none)
      | none => scanAux fuel (c :: plainRev) rest

/-- Model of parseInlineFormatting(text): empty or whitespace-only text
yields a single bare run with the text itself; otherwise the scan runs,
with a final fallback to a single bare run if it produced no items. -/
def parseInlineFormatting (text : List Char) : Option (List RichText) :=
  if text.isEmpty || (trimChars text).isEmpty then some [⟨text, none, none⟩]
  else
    match scanAux (text.length + 1) [] text with
    | some items => some (if items.isEmpty then [⟨text, none, none⟩] else items)
    | none => none

/-- Model of the bulleted list-item regex: optional leading whitespace,
an asterisk or hyphen, one whitespace character, then the rest of the
line as content (the dot of the content group does not cross a
newline).  Returns (indent width, content). -/
def matchBulletLine (line : List Char) : Option (Nat × List Char) :=
  match line.dropWhile isJsWhitespace with
  | c :: d :: rest =>
    if (c = '*' || c = '-') && isJsWhitespace d then
      some ((line.takeWhile isJsWhitespace).length, rest.takeWhile (fun x => x ≠ '\n'))
    else none
  | _ => none

/-- Model of the numbered list-item regex: optional leading whitespace,
one or more digits, a dot, one whitespace character, then the rest of
the line as content.  Returns (indent width, content). -/
def matchNumLine (line : List Char) : Option (Nat × List Char) :=
  let afterWs := line.dropWhile isJsWhitespace
  let digits := afterWs.takeWhile Char.isDigit
  if digits.isEmpty then none
  else
    match afterWs.drop digits.length with
    | p :: d :: rest =>
      if p = '.' ∧ isJsWhitespace d then
        some ((line.takeWhile isJsWhitespace).length, rest.takeWhile (fun x => x ≠ '\n'))
      else none
    | _ => none

/-- Combined list-line match with the source's priority
bulletMatch before numMatch; the boolean is true for a bullet. -/
def listLineMatchB (line : List Char) : Option (Bool × Nat × List Char) :=
  match matchBulletLine line with
  | some (i, c) => some (true, i, c)
  | none =>
    match matchNumLine line with
    | some (i, c) => some (false, i, c)
    | none => none

/-- Model of the horizontal-rule regex applied to the trimmed line:
the whole trimmed line is three or more repeated hyphens, asterisks or
underscores. -/
def isHorizontalRule (t : List Char) : Bool :=
  decide (3 ≤ t.length) &&
    (t.all (fun c => c = '-') || t.all (fun c => c = '*') ||
     t.all (fun c => c = '_'))

/-- Model of collectNestedListItems(lines, startIndex, parentIndent):
collects nested list children with indent strictly deeper than the
parent, skipping a blank line only when the immediately following line
is such a deeper list item; returns the children and the resume index.
Fuel models termination of the while loop. -/
def collectNestedListItems (fuel : Nat) (lines : List (List Char))
    (startIndex parentIndent : Nat) : Option (List NotionBlock × Nat) :=
  match fuel with
  | 0 => none
  | fuel + 1 =>
    if startIndex < lines.length then
      let line := lines.getD startIndex []
      if (trimChars line).isEmpty then
        if startIndex + 1 < lines.length then
          match listLineMatchB (lines.getD (startIndex + 1) []) with
          | some (_, ind, _) =>
            if parentIndent < ind then
              collectNestedListItems fuel lines (startIndex + 1) parentIndent
            else some ([], startIndex)
          | none => some ([], startIndex)
        else some ([], startIndex)
      else
        match listLineMatchB line with
        | some (isBullet, ind, content) =>
          if ind ≤ parentIndent then some ([], startIndex)
          else
            (match parseInlineFormatting content,
                   collectNestedListItems fuel lines (startIndex + 1) parentIndent with
             | some rich, some (rest, nxt) =>
               let blk := if isBullet then NotionBlock.bulletedListItem rich []
                          else NotionBlock.numberedListItem rich []
               some (blk :: rest, nxt)
             | _, _ => none)
        | none => some ([], startIndex)
    else some ([], startIndex)

/-- Inner while loop of the fenced-code rule: collects lines verbatim
from index j until a line whose trimmed form starts with three backticks
or the end of input; returns the collected lines and the stop index. -/
def codeScan (fuel : Nat) (lines : List (List Char)) (j : Nat) :
    Option (List (List Char) × Nat) :=
  match fuel with
  | 0 => none
  | fuel + 1 =>
    if j < lines.length then
      if ("```".toList).isPrefixOf (trimChars (lines.getD j [])) then some ([], j)
      else
        match codeScan fuel lines (j + 1) with
        | some (cs, j') => some (lines.getD j [] :: cs, j')
        | none => none
    else some ([], j)

/-- Model of String.prototype.split on the newline character: the JS
behavior, where the empty string yields one empty piece and a trailing
separator yields a trailing empty piece. -/
def splitOnNewline : List Char → List (List Char)
  | [] => [[]]
  | c :: rest =>
    if c = '\n' then [] :: splitOnNewline rest
    else
      match splitOnNewline rest with
      | [] => [[c]]
      | l :: ls => (c :: l) :: ls

/-- Main while loop of markdownToNotionBlocks over the line cursor i.
Rules in source order: blank skip, heading 3/2/1 by raw prefix,
horizontal rule on the trimmed line, fenced code, numbered list item,
bulleted list item, paragraph fallback.  Fuel models termination. -/
def mdLoop (fuel : Nat) (lines : List (List Char)) (i : Nat) :
    Option (List NotionBlock) :=
  match fuel with
  | 0 => none
  | fuel + 1 =>
    if i < lines.length then
      let line := lines.getD i []
      if (trimChars line).isEmpty then mdLoop fuel lines (i + 1)
      else if ("### ".toList).isPrefixOf line then
        (match parseInlineFormatting (line.drop 4), mdLoop fuel lines (i + 1) with
         | some rich, some rest => some (.heading3 rich :: rest)
         | _, _ => none)
      else if ("## ".toList).isPrefixOf line then
        (match parseInlineFormatting (line.drop 3), mdLoop fuel lines (i + 1) with
         | some rich, some rest => some (.heading2 rich :: rest)
         | _, _ => none)
      else if ("# ".toList).isPrefixOf line then
        (match parseInlineFormatting (line.drop 2), mdLoop fuel lines (i + 1) with
         | some rich, some rest => some (.heading1 rich :: rest)
         | _, _ => none)
      else if isHorizontalRule (trimChars line) then
        (match mdLoop fuel lines (i + 1) with
         | some rest => some (.divider :: rest)
         | none => none)
      else if ("```".toList).isPrefixOf (trimChars line) then
        let lang0 := trimChars ((trimChars line).drop 3)
        let lang := if lang0.isEmpty then "plain text".toList else lang0
        (match codeScan (lines.length + 1) lines (i + 1) with
         | some (codeLines, j) =>
           let skip := if j < lines.length then j + 1 else j
           (match splitRichText (List.intercalate ['\n'] codeLines) none none,
                  mdLoop fuel lines skip with
            | some rich, some rest => some (.codeBlock rich lang :: rest)
            | _, _ => none)
         | none => none)
      else
        match matchNumLine line with
        | some (ind, content) =>
          (match collectNestedListItems (lines.length + 1) lines (i + 1) ind,
                 parseInlineFormatting content with
           | some (children, nxt), some rich =>
             (match mdLoop fuel lines nxt with
              | some rest => some (.numberedListItem rich children :: rest)
              | none => none)
           | _, _ => none)
        | none =>
          match matchBulletLine line with
          | some (ind, content) =>
            (match collectNestedListItems (lines.length + 1) lines (i + 1) ind,
                   parseInlineFormatting content with
             | some (children, nxt), some rich =>
               (match mdLoop fuel lines nxt with
                | some rest => some (.bulletedListItem rich children :: rest)
                | none => none)
             | _, _ => none)
          | none =>
            (match parseInlineFormatting line, mdLoop fuel lines (i + 1) with
             | some rich, some rest => some (.paragraph rich :: rest)
             | _, _ => none)
    else some []

/-- Model of markdownToNotionBlocks(markdown): split into lines and run
the main loop from index 0. -/
def markdownToNotionBlocks (markdown : List Char) : Option (List NotionBlock) :=
  let lines := splitOnNewline markdown
  mdLoop (lines.length + 1) lines 0

theorem dropWhile_concat_of_neg (p : Char → Bool) (l : List Char) (x : Char)
    (hx : p x = false) : ∃ t, List.dropWhile p (l ++ [x]) = t ++ [x] := by
  induction l with
  | nil => exact ⟨[], by simp [List.dropWhile, hx]⟩
  | cons c l ih =>
    by_cases hc : p c
    · obtain ⟨t, ht⟩ := ih
      exact ⟨t, by simp [List.dropWhile, hc, ht]⟩
    · exact ⟨c :: l, by simp [List.dropWhile, hc]⟩

theorem trimChars_cons_of_neg (x : Char) (xs : List Char)
    (hx : isJsWhitespace x = false) : ∃ t, trimChars (x :: xs) = x :: t := by
  rw [trimChars]
  rw [List.dropWhile_cons_of_neg (by simp [hx])]
  have : (x :: xs).reverse = xs.reverse ++ [x] := by simp
  rw [this]
  obtain ⟨t, ht⟩ := dropWhile_concat_of_neg isJsWhitespace xs.reverse x hx
  rw [ht]
  exact ⟨t.reverse, by simp⟩

theorem trimChars_ne_nil_of_head (x : Char) (xs : List Char)
    (hx : isJsWhitespace x = false) : trimChars (x :: xs) ≠ [] := by
  obtain ⟨t, ht⟩ := trimChars_cons_of_neg x xs hx
  simp [ht]

theorem trimChars_eq_nil_of_all (l : List Char)
    (h : ∀ c ∈ l, isJsWhitespace c) : trimChars l = [] := by
  rw [trimChars]
  have h1 : l.dropWhile isJsWhitespace = [] := by
    rw [List.dropWhile_eq_nil_iff]
    exact h
  simp [h1]

theorem lazyCapture_length : ∀ (close s : List Char) (cap r : List Char),
    lazyCapture close s = some (cap, r) → r.length < s.length := by
  intro close s
  induction s with
  | nil => intro cap r h; simp [lazyCapture] at h
  | cons c rest ih =>
    intro cap r h
    rw [lazyCapture] at h
    by_cases hc : c = '\n'
    · simp [hc] at h
    · simp only [hc, if_false] at h
      by_cases hp : close.isPrefixOf rest
      · simp only [hp, if_true] at h
        simp at h
        obtain ⟨-, hr⟩ := h
        subst hr
        simp only [List.length_cons, List.length_drop]
        omega
      · simp only [hp, if_false, Bool.false_eq_true] at h
        match hm : lazyCapture close rest with
        | some (cap1, r1) =>
          rw [hm] at h
          simp at h
          obtain ⟨-, hr⟩ := h
          subst hr
          have := ih _ _ hm
          simp only [List.length_cons]
          omega
        | none => rw [hm] at h; simp at h

theorem closeAttempt_length (rest : List Char) (cap2 rest3 : List Char)
    (h : closeAttempt rest = some (cap2, rest3)) : rest3.length < rest.length := by
  match rest with
  | [] => simp [closeAttempt] at h
  | [r1] => simp [closeAttempt] at h
  | r1 :: r2 :: rest2 =>
    rw [closeAttempt] at h
    by_cases hc : r1 = ']' ∧ r2 = '('
    · simp only [hc, if_true] at h
      have := lazyCapture_length [')'] rest2 cap2 rest3 h
      simp only [List.length_cons]
      omega
    · simp [hc] at h

theorem linkGo_length : ∀ (s cap1 cap2 r : List Char),
    linkGo s = some (cap1, cap2, r) → r.length < s.length := by
  intro s
  induction s with
  | nil => intro cap1 cap2 r h; simp [linkGo] at h
  | cons c rest ih =>
    intro cap1 cap2 r h
    rw [linkGo] at h
    by_cases hc : c = '\n'
    · simp [hc] at h
    · simp only [hc, if_false] at h
      match hm : closeAttempt rest with
      | some (k2, r3) =>
        rw [hm] at h
        simp at h
        obtain ⟨-, -, hr⟩ := h
        have := closeAttempt_length rest k2 r3 hm
        rw [← hr]
        simp only [List.length_cons]
        omega
      | none =>
        rw [hm] at h
        match hg : linkGo rest with
        | some (k1, k2, r1) =>
          rw [hg] at h
          simp at h
          obtain ⟨-, -, hr⟩ := h
          have := ih _ _ _ hg
          rw [← hr]
          simp only [List.length_cons]
          omega
        | none => rw [hg] at h; simp at h

theorem length_drop_drop_lt (s : List Char) (n b : Nat) (hn : 0 < n)
    (hs : n ≤ s.length) : ((s.drop n).drop b).length < s.length := by
  simp only [List.length_drop]
  omega

theorem matchUrl_length (s : List Char) (u r : List Char)
    (h : matchUrl s = some (u, r)) : r.length < s.length := by
  rw [matchUrl] at h
  by_cases h8 : ("https://".toList).isPrefixOf s
  · simp only [h8, if_true] at h
    by_cases he : ((s.drop 8).takeWhile fun c => !(isJsWhitespace c) && c ≠ ')').isEmpty
    · rw [if_pos he] at h
      exact absurd h (by simp)
    · rw [if_neg he] at h
      have hr := congrArg Prod.snd (Option.some.inj h)
      simp only at hr
      rw [← hr]
      refine length_drop_drop_lt s 8 _ (by omega) ?_
      have := List.IsPrefix.length_le (List.isPrefixOf_iff_prefix.mp h8)
      simpa using this
  · simp only [h8, if_false, Bool.false_eq_true] at h
    by_cases h7 : ("http://".toList).isPrefixOf s
    · simp only [h7, if_true] at h
      by_cases he : ((s.drop 7).takeWhile fun c => !(isJsWhitespace c) && c ≠ ')').isEmpty
      · rw [if_pos he] at h
        exact absurd h (by simp)
      · rw [if_neg he] at h
        have hr := congrArg Prod.snd (Option.some.inj h)
        simp only at hr
        rw [← hr]
        refine length_drop_drop_lt s 7 _ (by omega) ?_
        have := List.IsPrefix.length_le (List.isPrefixOf_iff_prefix.mp h7)
        simpa using this
    · simp only [h7, if_false, Bool.false_eq_true] at h
      simp at h

theorem matchBold_length (s cap r : List Char)
    (h : matchBold s = some (cap, r)) : r.length < s.length := by
  match s with
  | [] => simp [matchBold] at h
  | [a] => simp [matchBold] at h
  | a :: b :: s2 =>
    simp only [matchBold] at h
    by_cases hc : a = '*' ∧ b = '*'
    · rw [if_pos hc] at h
      have := lazyCapture_length _ _ _ _ h
      simp only [List.length_cons]
      omega
    · rw [if_neg hc] at h
      simp at h

theorem matchStrike_length (s cap r : List Char)
    (h : matchStrike s = some (cap, r)) : r.length < s.length := by
  match s with
  | [] => simp [matchStrike] at h
  | [a] => simp [matchStrike] at h
  | a :: b :: s2 =>
    simp only [matchStrike] at h
    by_cases hc : a = '~' ∧ b = '~'
    · rw [if_pos hc] at h
      have := lazyCapture_length _ _ _ _ h
      simp only [List.length_cons]
      omega
    · rw [if_neg hc] at h
      simp at h

theorem matchICode_length (s cap r : List Char)
    (h : matchICode s = some (cap, r)) : r.length < s.length := by
  match s with
  | [] => simp [matchICode] at h
  | c :: s2 =>
    simp only [matchICode] at h
    by_cases hc : c = btick
    · rw [if_pos hc] at h
      have := lazyCapture_length _ _ _ _ h
      simp only [List.length_cons]
      omega
    · rw [if_neg hc] at h
      simp at h

theorem matchItalic_length (s cap r : List Char)
    (h : matchItalic s = some (cap, r)) : r.length < s.length := by
  match s with
  | [] => simp [matchItalic] at h
  | a :: s2 =>
    simp only [matchItalic] at h
    by_cases hc : a = '*'
    · rw [if_pos hc] at h
      have := lazyCapture_length _ _ _ _ h
      simp only [List.length_cons]
      omega
    · rw [if_neg hc] at h
      simp at h

theorem matchLink_length (s t u r : List Char)
    (h : matchLink s = some (t, u, r)) : r.length < s.length := by
  match s with
  | [] => simp [matchLink] at h
  | a :: s2 =>
    simp only [matchLink] at h
    by_cases hc : a = '['
    · rw [if_pos hc] at h
      have := linkGo_length _ _ _ _ h
      simp only [List.length_cons]
      omega
    · rw [if_neg hc] at h
      simp at h

theorem tryAlternatives_length (s : List Char) (m : InlineMatch) (r : List Char)
    (h : tryAlternatives s = some (m, r)) : r.length < s.length := by
  rw [tryAlternatives] at h
  match h1 : matchBold s with
  | some (cap, r1) =>
    rw [h1] at h
    simp at h
    obtain ⟨-, hr⟩ := h
    subst hr
    exact matchBold_length _ _ _ h1
  | none =>
    rw [h1] at h
    match h2 : matchStrike s with
    | some (cap, r1) =>
      rw [h2] at h
      simp at h
      obtain ⟨-, hr⟩ := h
      subst hr
      exact matchStrike_length _ _ _ h2
    | none =>
      rw [h2] at h
      match h3 : matchICode s with
      | some (cap, r1) =>
        rw [h3] at h
        simp at h
        obtain ⟨-, hr⟩ := h
        subst hr
        exact matchICode_length _ _ _ h3
      | none =>
        rw [h3] at h
        match h4 : matchLink s with
        | some (t, u, r1) =>
          rw [h4] at h
          simp at h
          obtain ⟨-, hr⟩ := h
          subst hr
          exact matchLink_length _ _ _ _ h4
        | none =>
          rw [h4] at h
          match h5 : matchItalic s with
          | some (cap, r1) =>
            rw [h5] at h
            simp at h
            obtain ⟨-, hr⟩ := h
            subst hr
            exact matchItalic_length _ _ _ h5
          | none =>
            rw [h5] at h
            match h6 : matchUrl s with
            | some (u, r1) =>
              rw [h6] at h
              simp at h
              obtain ⟨-, hr⟩ := h
              subst hr
              exact matchUrl_length _ _ _ h6
            | none =>
              rw [h6] at h
              simp at h

theorem renderMatch_isSome (m : InlineMatch) : (renderMatch m).isSome := by
  cases m with
  | bold cap => exact splitRichText_isSome cap (some boldAnn) none
  | strike cap => exact splitRichText_isSome cap (some strikeAnn) none
  | icode cap => exact splitRichText_isSome cap (some codeAnn) none
  | mdlink t u => simp [renderMatch]
  | italic cap => exact splitRichText_isSome cap (some italicAnn) none
  | bareUrl u => simp [renderMatch]

theorem renderMatch_ne_nil (m : InlineMatch) (items : List RichText)
    (h : renderMatch m = some items) : items ≠ [] := by
  cases m with
  | bold cap => exact splitRichText_ne_nil _ _ _ _ h
  | strike cap => exact splitRichText_ne_nil _ _ _ _ h
  | icode cap => exact splitRichText_ne_nil _ _ _ _ h
  | mdlink t u => simp [renderMatch] at h; subst h; simp
  | italic cap => exact splitRichText_ne_nil _ _ _ _ h
  | bareUrl u => simp [renderMatch] at h; subst h; simp

theorem renderMatch_nolink_bound (m : InlineMatch) (items : List RichText)
    (h : renderMatch m = some items) :
    ∀ r ∈ items, r.link = none → r.content.length ≤ NOTION_TEXT_LIMIT := by
  cases m with
  | bold cap =>
    intro r hr _
    exact (splitRichText_join _ _ _ _ h).2 r hr
  | strike cap =>
    intro r hr _
    exact (splitRichText_join _ _ _ _ h).2 r hr
  | icode cap =>
    intro r hr _
    exact (splitRichText_join _ _ _ _ h).2 r hr
  | mdlink t u =>
    simp [renderMatch] at h
    subst h
    intro r hr hl
    simp at hr
    subst hr
    simp at hl
  | italic cap =>
    intro r hr _
    exact (splitRichText_join _ _ _ _ h).2 r hr
  | bareUrl u =>
    simp [renderMatch] at h
    subst h
    intro r hr hl
    simp at hr
    subst hr
    simp at hl

theorem flushPlain_isSome (plainRev : List Char) : (flushPlain plainRev).isSome := by
  rw [flushPlain]
  by_cases hp : plainRev.isEmpty
  · simp [hp]
  · simp only [hp, if_false, Bool.false_eq_true]
    exact splitRichText_isSome _ _ _

theorem flushPlain_bound (plainRev : List Char) (items : List RichText)
    (h : flushPlain plainRev = some items) :
    ∀ r ∈ items, r.content.length ≤ NOTION_TEXT_LIMIT := by
  rw [flushPlain] at h
  by_cases hp : plainRev.isEmpty
  · simp [hp] at h
    subst h
    simp
  · simp only [hp, if_false, Bool.false_eq_true] at h
    exact (splitRichText_join _ _ _ _ h).2

theorem flushPlain_ne_nil (plainRev : List Char) (items : List RichText)
    (hp : ¬ plainRev.isEmpty) (h : flushPlain plainRev = some items) :
    items ≠ [] := by
  rw [flushPlain] at h
  simp only [hp, if_false, Bool.false_eq_true] at h
  exact splitRichText_ne_nil _ _ _ _ h

theorem scanAux_zero (plainRev s : List Char) : scanAux 0 plainRev s = none := rfl

theorem scanAux_succ_nil (n : Nat) (plainRev : List Char) :
    scanAux (n + 1) plainRev [] = flushPlain plainRev := rfl

theorem scanAux_succ_cons (n : Nat) (plainRev : List Char) (c : Char)
    (rest : List Char) :
    scanAux (n + 1) plainRev (c :: rest) =
      (match tryAlternatives (c :: rest) with
       | some (m, rest') =>
         (match flushPlain plainRev, renderMatch m, scanAux n [] rest' with
          | some flushed, some items, some tail => some (flushed ++ items ++ tail)
          | _, _, _ => none)
       | none => scanAux n (c :: plainRev) rest) := rfl

theorem scanAux_isSome : ∀ (fuel : Nat) (plainRev s : List Char),
    s.length < fuel → (scanAux fuel plainRev s).isSome := by
  intro fuel
  induction fuel with
  | zero => intro plainRev s h; omega
  | succ n ih =>
    intro plainRev s h
    match s with
    | [] =>
      rw [scanAux_succ_nil]
      exact flushPlain_isSome plainRev
    | c :: rest =>
      rw [scanAux_succ_cons]
      match hm : tryAlternatives (c :: rest) with
      | some (m, rest') =>
        have hlt := tryAlternatives_length _ _ _ hm
        have h1 := flushPlain_isSome plainRev
        have h2 := renderMatch_isSome m
        have h3 := ih [] rest' (by simp only [List.length_cons] at hlt h; omega)
        simp only []
        match hf : flushPlain plainRev with
        | none => rw [hf] at h1; simp at h1
        | some flushed =>
          match hrm : renderMatch m with
          | none => rw [hrm] at h2; simp at h2
          | some items =>
            match ht : scanAux n [] rest' with
            | none => rw [ht] at h3; simp at h3
            | some tail => simp
      | none =>
        simp only []
        apply ih
        simp only [List.length_cons] at h
        omega

theorem scanAux_ne_nil : ∀ (fuel : Nat) (plainRev s : List Char)
    (items : List RichText),
    (¬ plainRev.isEmpty ∨ ¬ s.isEmpty) →
    scanAux fuel plainRev s = some items → items ≠ [] := by
  intro fuel
  induction fuel with
  | zero => intro plainRev s items _ h; simp [scanAux_zero] at h
  | succ n ih =>
    intro plainRev s items hne h
    match s with
    | [] =>
      rw [scanAux_succ_nil] at h
      rcases hne with hp | hs
      · exact flushPlain_ne_nil plainRev items hp h
      · simp at hs
    | c :: rest =>
      rw [scanAux_succ_cons] at h
      match hm : tryAlternatives (c :: rest) with
      | some (m, rest') =>
        rw [hm] at h
        simp only [] at h
        match hf : flushPlain plainRev with
        | none => rw [hf] at h; simp at h
        | some flushed =>
          rw [hf] at h
          match hrm : renderMatch m with
          | none => rw [hrm] at h; simp at h
          | some its =>
            rw [hrm] at h
            match ht : scanAux n [] rest' with
            | none => rw [ht] at h; simp at h
            | some tl =>
              rw [ht] at h
              simp only [Option.some.injEq] at h
              subst h
              have hni := renderMatch_ne_nil m its hrm
              intro hco
              apply hni
              have hlen := congrArg List.length hco
              simp only [List.length_append, List.length_nil] at hlen
              have : its.length = 0 := by omega
              exact List.length_eq_zero.mp this
      | none =>
        rw [hm] at h
        simp only [] at h
        exact ih (c :: plainRev) rest items (Or.inl (by simp)) h

theorem scanAux_nolink_bound : ∀ (fuel : Nat) (plainRev s : List Char)
    (items : List RichText),
    scanAux fuel plainRev s = some items →
    ∀ r ∈ items, r.link = none → r.content.length ≤ NOTION_TEXT_LIMIT := by
  intro fuel
  induction fuel with
  | zero => intro plainRev s items h; simp [scanAux_zero] at h
  | succ n ih =>
    intro plainRev s items h
    match s with
    | [] =>
      rw [scanAux_succ_nil] at h
      intro r hr _
      exact flushPlain_bound plainRev items h r hr
    | c :: rest =>
      rw [scanAux_succ_cons] at h
      match hm : tryAlternatives (c :: rest) with
      | some (m, rest') =>
        rw [hm] at h
        simp only [] at h
        match hf : flushPlain plainRev with
        | none => rw [hf] at h; simp at h
        | some flushed =>
          rw [hf] at h
          match hrm : renderMatch m with
          | none => rw [hrm] at h; simp at h
          | some its =>
            rw [hrm] at h
            match ht : scanAux n [] rest' with
            | none => rw [ht] at h; simp at h
            | some tl =>
              rw [ht] at h
              simp only [Option.some.injEq] at h
              subst h
              intro r hr hl
              simp only [List.mem_append] at hr
              rcases hr with (hr | hr) | hr
              · exact flushPlain_bound plainRev flushed hf r hr
              · exact renderMatch_nolink_bound m its hrm r hr hl
              · exact ih [] rest' tl ht r hr hl
      | none =>
        rw [hm] at h
        simp only [] at h
        exact ih (c :: plainRev) rest items h

theorem parseInlineFormatting_isSome (text : List Char) :
    (parseInlineFormatting text).isSome := by
  rw [parseInlineFormatting]
  by_cases hb : text.isEmpty || (trimChars text).isEmpty
  · simp [hb]
  · simp only [hb, if_false, Bool.false_eq_true]
    have := scanAux_isSome (text.length + 1) [] text (by omega)
    match hm : scanAux (text.length + 1) [] text with
    | some items => simp
    | none => rw [hm] at this; simp at this

theorem trimChars_ne_nil_of_dropWhile (l : List Char) (c : Char) (t : List Char)
    (hc : isJsWhitespace c = false)
    (hd : l.dropWhile isJsWhitespace = c :: t) : trimChars l ≠ [] := by
  rw [trimChars, hd]
  have : (c :: t).reverse = t.reverse ++ [c] := by simp
  rw [this]
  obtain ⟨t', ht'⟩ := dropWhile_concat_of_neg isJsWhitespace t.reverse c hc
  rw [ht']
  simp

theorem isDigit_not_ws (c : Char) (h : c.isDigit) : isJsWhitespace c = false := by
  by_contra hw
  simp only [Bool.not_eq_false] at hw
  rw [isJsWhitespace] at hw
  simp only [Bool.or_eq_true, decide_eq_true_eq] at hw
  rcases hw with ((((((((hw | hw) | hw) | hw) | hw) | hw) | hw) | hw) | hw) | hw <;>
    subst hw <;> simp [Char.isDigit] at h

theorem matchBulletLine_trim (line : List Char) (ind : Nat) (c : List Char)
    (h : matchBulletLine line = some (ind, c)) : trimChars line ≠ [] := by
  simp only [matchBulletLine] at h
  match hd : line.dropWhile isJsWhitespace with
  | [] => rw [hd] at h; simp at h
  | [a] => rw [hd] at h; simp at h
  | c0 :: d :: rest =>
    rw [hd] at h
    by_cases hcond : (c0 = '*' || c0 = '-') && isJsWhitespace d
    · have hc0 : isJsWhitespace c0 = false := by
        simp only [Bool.and_eq_true, Bool.or_eq_true, decide_eq_true_eq] at hcond
        rcases hcond.1 with h1 | h1 <;> subst h1 <;> decide
      exact trimChars_ne_nil_of_dropWhile line c0 (d :: rest) hc0 hd
    · simp only [] at h
      rw [if_neg hcond] at h
      simp at h

theorem matchNumLine_trim (line : List Char) (ind : Nat) (c : List Char)
    (h : matchNumLine line = some (ind, c)) : trimChars line ≠ [] := by
  simp only [matchNumLine] at h
  match hd : line.dropWhile isJsWhitespace with
  | [] => rw [hd] at h; simp at h
  | a :: t =>
    rw [hd] at h
    by_cases ha : a.isDigit
    · exact trimChars_ne_nil_of_dropWhile line a t (isDigit_not_ws a ha) hd
    · have : (a :: t).takeWhile Char.isDigit = [] := by
        rw [List.takeWhile_cons_of_neg (by simpa using ha)]
      rw [this] at h
      simp at h

theorem listLineMatchB_trim (line : List Char) (b : Bool) (ind : Nat)
    (c : List Char) (h : listLineMatchB line = some (b, ind, c)) :
    trimChars line ≠ [] := by
  rw [listLineMatchB] at h
  match hb : matchBulletLine line with
  | some (i, cc) =>
    exact matchBulletLine_trim line i cc hb
  | none =>
    rw [hb] at h
    match hn : matchNumLine line with
    | some (i, cc) => exact matchNumLine_trim line i cc hn
    | none => rw [hn] at h; simp at h

theorem collect_isSome : ∀ (fuel : Nat) (lines : List (List Char)) (s p : Nat),
    lines.length - s < fuel → (collectNestedListItems fuel lines s p).isSome := by
  intro fuel
  induction fuel with
  | zero => intro lines s p h; omega
  | succ n ih =>
    intro lines s p h
    rw [collectNestedListItems]
    simp only []
    by_cases hs : s < lines.length
    · simp only [hs, if_true]
      by_cases hb : (trimChars (lines.getD s [])).isEmpty
      · simp only [hb, if_true]
        by_cases hs1 : s + 1 < lines.length
        · simp only [hs1, if_true]
          match listLineMatchB (lines.getD (s + 1) []) with
          | some (bb, ind, cc) =>
            simp only []
            by_cases hip : p < ind
            · simp only [hip, if_true]
              exact ih lines (s + 1) p (by omega)
            · simp only [hip, if_false]
              simp
          | none => simp
        · simp only [hs1, if_false]
          simp
      · simp only [hb, if_false, Bool.false_eq_true]
        match listLineMatchB (lines.getD s []) with
        | some (bb, ind, cc) =>
          simp only []
          by_cases hip : ind ≤ p
          · simp only [hip, if_true]
            simp
          · simp only [hip, if_false]
            have hpi := parseInlineFormatting_isSome cc
            have hci := ih lines (s + 1) p (by omega)
            match hp : parseInlineFormatting cc with
            | none => rw [hp] at hpi; simp at hpi
            | some rich =>
              match hc : collectNestedListItems n lines (s + 1) p with
              | none => rw [hc] at hci; simp at hci
              | some (rest, nxt) => simp
        | none => simp
    · simp only [hs, if_false]
      simp

theorem collect_break : ∀ (fuel : Nat) (lines : List (List Char)) (s p : Nat)
    (ch : List NotionBlock) (nxt : Nat),
    collectNestedListItems fuel lines s p = some (ch, nxt) →
    s ≤ nxt ∧ (nxt < lines.length → ¬ (trimChars (lines.getD nxt [])).isEmpty →
      ∀ b ind c, listLineMatchB (lines.getD nxt []) = some (b, ind, c) → ind ≤ p) := by
  intro fuel
  induction fuel with
  | zero => intro lines s p ch nxt h; simp [collectNestedListItems] at h
  | succ n ih =>
    intro lines s p ch nxt h
    rw [collectNestedListItems] at h
    simp only [] at h
    by_cases hs : s < lines.length
    · simp only [hs, if_true] at h
      by_cases hb : (trimChars (lines.getD s [])).isEmpty
      · simp only [hb, if_true] at h
        by_cases hs1 : s + 1 < lines.length
        · simp only [hs1, if_true] at h
          match hm : listLineMatchB (lines.getD (s + 1) []) with
          | some (bb, ind, cc) =>
            rw [hm] at h
            simp only [] at h
            by_cases hip : p < ind
            · simp only [hip, if_true] at h
              obtain ⟨h1, h2⟩ := ih lines (s + 1) p ch nxt h
              exact ⟨by omega, h2⟩
            · simp only [hip, if_false] at h
              simp at h
              obtain ⟨h1, h2⟩ := h
              subst h2
              refine ⟨le_refl s, fun _ hbc => ?_⟩
              exact absurd hb hbc
          | none =>
            rw [hm] at h
            simp at h
            obtain ⟨h1, h2⟩ := h
            subst h2
            refine ⟨le_refl s, fun _ hbc => ?_⟩
            exact absurd hb hbc
        · simp only [hs1, if_false] at h
          simp at h
          obtain ⟨h1, h2⟩ := h
          subst h2
          refine ⟨le_refl s, fun _ hbc => ?_⟩
          exact absurd hb hbc
      · simp only [hb, if_false, Bool.false_eq_true] at h
        match hm : listLineMatchB (lines.getD s []) with
        | some (bb, ind, cc) =>
          rw [hm] at h
          simp only [] at h
          by_cases hip : ind ≤ p
          · simp only [hip, if_true] at h
            simp at h
            obtain ⟨h1, h2⟩ := h
            subst h2
            refine ⟨le_refl s, fun _ _ b2 ind2 c2 hm2 => ?_⟩
            rw [hm] at hm2
            simp at hm2
            obtain ⟨-, hi2, -⟩ := hm2
            omega
          · simp only [hip, if_false] at h
            match hp : parseInlineFormatting cc with
            | none => rw [hp] at h; simp at h
            | some rich =>
              rw [hp] at h
              match hc : collectNestedListItems n lines (s + 1) p with
              | none => rw [hc] at h; simp at h
              | some (rest, nxt1) =>
                rw [hc] at h
                simp at h
                obtain ⟨-, h2⟩ := h
                subst h2
                obtain ⟨h1, h2⟩ := ih lines (s + 1) p rest nxt1 hc
                exact ⟨by omega, h2⟩
        | none =>
          rw [hm] at h
          simp at h
          obtain ⟨h1, h2⟩ := h
          subst h2
          refine ⟨le_refl s, fun _ _ b2 ind2 c2 hm2 => ?_⟩
          rw [hm] at hm2
          simp at hm2
    · simp only [hs, if_false] at h
      simp at h
      obtain ⟨h1, h2⟩ := h
      subst h2
      exact ⟨le_refl s, fun hlt _ => absurd hlt hs⟩

/-- Condition under which the collector's blank-line branch skips: the
immediately following line exists and matches a list-item pattern with
indent strictly deeper than the parent. -/
def skipCond (lines : List (List Char)) (s p : Nat) : Prop :=
  s + 1 < lines.length ∧
    ∃ b ind c, listLineMatchB (lines.getD (s + 1) []) = some (b, ind, c) ∧ p < ind

/-- Spec-side condition of the claim: the first non-blank line after the
blank one is a list item indented strictly deeper than the parent. -/
def followCond (lines : List (List Char)) (s p : Nat) : Prop :=
  ∃ j, s < j ∧ j < lines.length ∧
    (∀ k, s < k → k < j → (trimChars (lines.getD k [])).isEmpty) ∧
    ¬ (trimChars (lines.getD j [])).isEmpty ∧
    ∃ b ind c, listLineMatchB (lines.getD j []) = some (b, ind, c) ∧ p < ind

theorem skipCond_imp_followCond (lines : List (List Char)) (s p : Nat)
    (h : skipCond lines s p) : followCond lines s p := by
  obtain ⟨h1, b, ind, c, hm, hip⟩ := h
  refine ⟨s + 1, by omega, h1, fun k hk1 hk2 => by omega, ?_, b, ind, c, hm, hip⟩
  have := listLineMatchB_trim _ _ _ _ hm
  simpa using this

theorem collect_blank_stop (n : Nat) (lines : List (List Char)) (s p : Nat)
    (hs : s < lines.length) (hb : (trimChars (lines.getD s [])).isEmpty)
    (hns : ¬ skipCond lines s p) :
    collectNestedListItems (n + 1) lines s p = some ([], s) := by
  rw [collectNestedListItems]
  simp only [hs, if_true, hb]
  by_cases hs1 : s + 1 < lines.length
  · simp only [hs1, if_true]
    match hm : listLineMatchB (lines.getD (s + 1) []) with
    | some (bb, ind, cc) =>
      simp only []
      by_cases hip : p < ind
      · exact absurd ⟨hs1, bb, ind, cc, hm, hip⟩ hns
      · simp only [hip, if_false]
    | none => rfl
  · simp only [hs1, if_false]

theorem collect_blank_skip (n : Nat) (lines : List (List Char)) (s p : Nat)
    (hs : s < lines.length) (hb : (trimChars (lines.getD s [])).isEmpty)
    (hsk : skipCond lines s p) :
    collectNestedListItems (n + 1) lines s p =
      collectNestedListItems n lines (s + 1) p := by
  obtain ⟨hs1, bb, ind, cc, hm, hip⟩ := hsk
  rw [collectNestedListItems]
  simp only [hs, if_true, hb, hs1, hm, hip, if_true]

theorem codeScan_isSome : ∀ (fuel : Nat) (lines : List (List Char)) (j : Nat),
    lines.length - j < fuel → (codeScan fuel lines j).isSome := by
  intro fuel
  induction fuel with
  | zero => intro lines j h; omega
  | succ n ih =>
    intro lines j h
    rw [codeScan]
    by_cases hj : j < lines.length
    · simp only [hj, if_true]
      by_cases hp : ("```".toList).isPrefixOf (trimChars (lines.getD j []))
      · rw [if_pos hp]
        simp
      · simp only [hp, if_false, Bool.false_eq_true]
        have := ih lines (j + 1) (by omega)
        match hm : codeScan n lines (j + 1) with
        | some (cs, j') => simp
        | none => rw [hm] at this; simp at this
    · simp only [hj, if_false]
      simp

theorem codeScan_ge : ∀ (fuel : Nat) (lines : List (List Char)) (j : Nat)
    (cs : List (List Char)) (j' : Nat),
    codeScan fuel lines j = some (cs, j') → j ≤ j' := by
  intro fuel
  induction fuel with
  | zero => intro lines j cs j' h; simp [codeScan] at h
  | succ n ih =>
    intro lines j cs j' h
    rw [codeScan] at h
    by_cases hj : j < lines.length
    · simp only [hj, if_true] at h
      by_cases hp : ("```".toList).isPrefixOf (trimChars (lines.getD j []))
      · rw [if_pos hp] at h
        simp at h
        omega
      · simp only [hp, if_false, Bool.false_eq_true] at h
        match hm : codeScan n lines (j + 1) with
        | some (cs1, j1) =>
          rw [hm] at h
          simp at h
          obtain ⟨-, h2⟩ := h
          have := ih lines (j + 1) cs1 j1 hm
          omega
        | none => rw [hm] at h; simp at h
    · simp only [hj, if_false] at h
      simp at h
      omega

theorem codeScan_spec : ∀ (fuel : Nat) (lines : List (List Char)) (j k : Nat),
    j ≤ k → k ≤ lines.length →
    (∀ t, j ≤ t → t < k → ¬ ("```".toList).isPrefixOf (trimChars (lines.getD t []))) →
    (k = lines.length ∨ ("```".toList).isPrefixOf (trimChars (lines.getD k []))) →
    lines.length - j < fuel →
    codeScan fuel lines j = some ((lines.drop j).take (k - j), k) := by
  intro fuel
  induction fuel with
  | zero => intro lines j k _ _ _ _ hf; omega
  | succ n ih =>
    intro lines j k hjk hk hmid hterm hf
    rw [codeScan]
    by_cases hj : j < lines.length
    · simp only [hj, if_true]
      by_cases hjek : j = k
      · subst hjek
        have hp : ("```".toList).isPrefixOf (trimChars (lines.getD j [])) := by
          rcases hterm with hterm | hterm
          · omega
          · exact hterm
        simp only [hp, if_true]
        simp
      · have hjk' : j < k := by omega
        have hp : ¬ ("```".toList).isPrefixOf (trimChars (lines.getD j [])) :=
          hmid j (le_refl j) hjk'
        simp only [hp, if_false, Bool.false_eq_true]
        have hrec := ih lines (j + 1) k (by omega) hk
          (fun t ht1 ht2 => hmid t (by omega) ht2) hterm (by omega)
        rw [hrec]
        have hdrop : lines.drop j = lines.getD j [] :: lines.drop (j + 1) := by
          rw [List.getD_eq_getElem lines [] hj]
          exact List.drop_eq_getElem_cons hj
        rw [hdrop]
        have : k - j = (k - (j + 1)) + 1 := by omega
        rw [this, List.take_succ_cons]
    · have hjl : j = lines.length := by omega
      have hkl : k = lines.length := by omega
      simp only [hj, if_false]
      subst hjl
      subst hkl
      simp

theorem mdLoop_isSome : ∀ (fuel : Nat) (lines : List (List Char)) (i : Nat),
    lines.length - i < fuel → (mdLoop fuel lines i).isSome := by
  intro fuel
  induction fuel with
  | zero => intro lines i h; omega
  | succ n ih =>
    intro lines i h
    rw [mdLoop]
    by_cases hs : i < lines.length
    · rw [if_pos hs]
      simp only []
      by_cases hb : (trimChars (lines.getD i [])).isEmpty
      · rw [if_pos hb]
        exact ih lines (i + 1) (by omega)
      · rw [if_neg hb]
        by_cases h3 : ("### ".toList).isPrefixOf (lines.getD i [])
        · rw [if_pos h3]
          obtain ⟨rich, hp⟩ :=
            Option.isSome_iff_exists.mp
              (parseInlineFormatting_isSome ((lines.getD i []).drop 4))
          rw [hp]
          obtain ⟨rest, hm⟩ :=
            Option.isSome_iff_exists.mp (ih lines (i + 1) (by omega))
          rw [hm]
          simp
        · rw [if_neg h3]
          by_cases h2 : ("## ".toList).isPrefixOf (lines.getD i [])
          · rw [if_pos h2]
            obtain ⟨rich, hp⟩ :=
              Option.isSome_iff_exists.mp
                (parseInlineFormatting_isSome ((lines.getD i []).drop 3))
            rw [hp]
            obtain ⟨rest, hm⟩ :=
              Option.isSome_iff_exists.mp (ih lines (i + 1) (by omega))
            rw [hm]
            simp
          · rw [if_neg h2]
            by_cases h1 : ("# ".toList).isPrefixOf (lines.getD i [])
            · rw [if_pos h1]
              obtain ⟨rich, hp⟩ :=
                Option.isSome_iff_exists.mp
                  (parseInlineFormatting_isSome ((lines.getD i []).drop 2))
              rw [hp]
              obtain ⟨rest, hm⟩ :=
                Option.isSome_iff_exists.mp (ih lines (i + 1) (by omega))
              rw [hm]
              simp
            · rw [if_neg h1]
              by_cases hhr : isHorizontalRule (trimChars (lines.getD i []))
              · rw [if_pos hhr]
                obtain ⟨rest, hm⟩ :=
                  Option.isSome_iff_exists.mp (ih lines (i + 1) (by omega))
                rw [hm]
                simp
              · rw [if_neg hhr]
                by_cases hfc : ("```".toList).isPrefixOf (trimChars (lines.getD i []))
                · rw [if_pos hfc]
                  obtain ⟨⟨codeLines, j⟩, hc⟩ :=
                    Option.isSome_iff_exists.mp
                      (codeScan_isSome (lines.length + 1) lines (i + 1) (by omega))
                  rw [hc]
                  simp only []
                  have hge := codeScan_ge _ lines (i + 1) codeLines j hc
                  obtain ⟨rich, hsr⟩ :=
                    Option.isSome_iff_exists.mp
                      (splitRichText_isSome (List.intercalate ['\n'] codeLines) none none)
                  rw [hsr]
                  have hmi : (mdLoop n lines (if j < lines.length then j + 1 else j)).isSome := by
                    apply ih
                    by_cases hj : j < lines.length
                    · rw [if_pos hj]; omega
                    · rw [if_neg hj]; omega
                  obtain ⟨rest, hm⟩ := Option.isSome_iff_exists.mp hmi
                  rw [hm]
                  simp
                · rw [if_neg hfc]
                  match hnum : matchNumLine (lines.getD i []) with
                  | some (ind, content) =>
                    simp only []
                    obtain ⟨⟨children, nxt⟩, hc⟩ :=
                      Option.isSome_iff_exists.mp
                        (collect_isSome (lines.length + 1) lines (i + 1) ind (by omega))
                    rw [hc]
                    have hge := (collect_break _ lines (i + 1) ind children nxt hc).1
                    obtain ⟨rich, hp⟩ :=
                      Option.isSome_iff_exists.mp (parseInlineFormatting_isSome content)
                    rw [hp]
                    simp only []
                    obtain ⟨rest, hm⟩ :=
                      Option.isSome_iff_exists.mp (ih lines nxt (by omega))
                    rw [hm]
                    simp
                  | none =>
                    simp only []
                    match hbul : matchBulletLine (lines.getD i []) with
                    | some (ind, content) =>
                      simp only []
                      obtain ⟨⟨children, nxt⟩, hc⟩ :=
                        Option.isSome_iff_exists.mp
                          (collect_isSome (lines.length + 1) lines (i + 1) ind (by omega))
                      rw [hc]
                      have hge := (collect_break _ lines (i + 1) ind children nxt hc).1
                      obtain ⟨rich, hp⟩ :=
                        Option.isSome_iff_exists.mp (parseInlineFormatting_isSome content)
                      rw [hp]
                      simp only []
                      obtain ⟨rest, hm⟩ :=
                        Option.isSome_iff_exists.mp (ih lines nxt (by omega))
                      rw [hm]
                      simp
                    | none =>
                      simp only []
                      obtain ⟨rich, hp⟩ :=
                        Option.isSome_iff_exists.mp
                          (parseInlineFormatting_isSome (lines.getD i []))
                      rw [hp]
                      obtain ⟨rest, hm⟩ :=
                        Option.isSome_iff_exists.mp (ih lines (i + 1) (by omega))
                      rw [hm]
                      simp
    · rw [if_neg hs]
      simp

theorem markdownToNotionBlocks_isSome (markdown : List Char) :
    (markdownToNotionBlocks markdown).isSome := by
  rw [markdownToNotionBlocks]
  exact mdLoop_isSome _ _ 0 (by omega)

theorem mdLoop_count : ∀ (fuel : Nat) (lines : List (List Char)) (i : Nat)
    (bs : List NotionBlock), mdLoop fuel lines i = some bs →
    bs.length ≤ lines.length - i := by
  intro fuel
  induction fuel with
  | zero => intro lines i bs h; simp [mdLoop] at h
  | succ n ih =>
    intro lines i bs h
    rw [mdLoop] at h
    by_cases hs : i < lines.length
    · rw [if_pos hs] at h
      simp only [] at h
      by_cases hb : (trimChars (lines.getD i [])).isEmpty
      · rw [if_pos hb] at h
        have := ih lines (i + 1) bs h
        omega
      · rw [if_neg hb] at h
        by_cases h3 : ("### ".toList).isPrefixOf (lines.getD i [])
        · rw [if_pos h3] at h
          obtain ⟨rich, hp⟩ :=
            Option.isSome_iff_exists.mp
              (parseInlineFormatting_isSome ((lines.getD i []).drop 4))
          rw [hp] at h
          match hm : mdLoop n lines (i + 1) with
          | none => rw [hm] at h; simp at h
          | some rest =>
            rw [hm] at h
            simp at h
            have := ih lines (i + 1) rest hm
            subst h
            simp only [List.length_cons]
            omega
        · rw [if_neg h3] at h
          by_cases h2 : ("## ".toList).isPrefixOf (lines.getD i [])
          · rw [if_pos h2] at h
            obtain ⟨rich, hp⟩ :=
              Option.isSome_iff_exists.mp
                (parseInlineFormatting_isSome ((lines.getD i []).drop 3))
            rw [hp] at h
            match hm : mdLoop n lines (i + 1) with
            | none => rw [hm] at h; simp at h
            | some rest =>
              rw [hm] at h
              simp at h
              have := ih lines (i + 1) rest hm
              subst h
              simp only [List.length_cons]
              omega
          · rw [if_neg h2] at h
            by_cases h1 : ("# ".toList).isPrefixOf (lines.getD i [])
            · rw [if_pos h1] at h
              obtain ⟨rich, hp⟩ :=
                Option.isSome_iff_exists.mp
                  (parseInlineFormatting_isSome ((lines.getD i []).drop 2))
              rw [hp] at h
              match hm : mdLoop n lines (i + 1) with
              | none => rw [hm] at h; simp at h
              | some rest =>
                rw [hm] at h
                simp at h
                have := ih lines (i + 1) rest hm
                subst h
                simp only [List.length_cons]
                omega
            · rw [if_neg h1] at h
              by_cases hhr : isHorizontalRule (trimChars (lines.getD i []))
              · rw [if_pos hhr] at h
                match hm : mdLoop n lines (i + 1) with
                | none => rw [hm] at h; simp at h
                | some rest =>
                  rw [hm] at h
                  simp at h
                  have := ih lines (i + 1) rest hm
                  subst h
                  simp only [List.length_cons]
                  omega
              · rw [if_neg hhr] at h
                by_cases hfc : ("```".toList).isPrefixOf (trimChars (lines.getD i []))
                · rw [if_pos hfc] at h
                  match hc : codeScan (lines.length + 1) lines (i + 1) with
                  | none => rw [hc] at h; simp at h
                  | some (codeLines, j) =>
                    rw [hc] at h
                    simp only [] at h
                    have hge := codeScan_ge _ lines (i + 1) codeLines j hc
                    obtain ⟨rich, hsr⟩ :=
                      Option.isSome_iff_exists.mp
                        (splitRichText_isSome (List.intercalate ['\n'] codeLines) none none)
                    rw [hsr] at h
                    match hm : mdLoop n lines (if j < lines.length then j + 1 else j) with
                    | none => rw [hm] at h; simp at h
                    | some rest =>
                      rw [hm] at h
                      simp at h
                      have hrest := ih lines (if j < lines.length then j + 1 else j) rest hm
                      subst h
                      simp only [List.length_cons]
                      by_cases hj : j < lines.length
                      · rw [if_pos hj] at hrest; omega
                      · rw [if_neg hj] at hrest; omega
                · rw [if_neg hfc] at h
                  match hnum : matchNumLine (lines.getD i []) with
                  | some (ind, content) =>
                    rw [hnum] at h
                    simp only [] at h
                    match hc : collectNestedListItems (lines.length + 1) lines (i + 1) ind with
                    | none => rw [hc] at h; simp at h
                    | some (children, nxt) =>
                      rw [hc] at h
                      have hge := (collect_break _ lines (i + 1) ind children nxt hc).1
                      obtain ⟨rich, hp⟩ :=
                        Option.isSome_iff_exists.mp (parseInlineFormatting_isSome content)
                      rw [hp] at h
                      simp only [] at h
                      match hm : mdLoop n lines nxt with
                      | none => rw [hm] at h; simp at h
                      | some rest =>
                        rw [hm] at h
                        simp at h
                        have := ih lines nxt rest hm
                        subst h
                        simp only [List.length_cons]
                        omega
                  | none =>
                    rw [hnum] at h
                    simp only [] at h
                    match hbul : matchBulletLine (lines.getD i []) with
                    | some (ind, content) =>
                      rw [hbul] at h
                      simp only [] at h
                      match hc : collectNestedListItems (lines.length + 1) lines (i + 1) ind with
                      | none => rw [hc] at h; simp at h
                      | some (children, nxt) =>
                        rw [hc] at h
                        have hge := (collect_break _ lines (i + 1) ind children nxt hc).1
                        obtain ⟨rich, hp⟩ :=
                          Option.isSome_iff_exists.mp (parseInlineFormatting_isSome content)
                        rw [hp] at h
                        simp only [] at h
                        match hm : mdLoop n lines nxt with
                        | none => rw [hm] at h; simp at h
                        | some rest =>
                          rw [hm] at h
                          simp at h
                          have := ih lines nxt rest hm
                          subst h
                          simp only [List.length_cons]
                          omega
                    | none =>
                      rw [hbul] at h
                      simp only [] at h
                      obtain ⟨rich, hp⟩ :=
                        Option.isSome_iff_exists.mp
                          (parseInlineFormatting_isSome (lines.getD i []))
                      rw [hp] at h
                      match hm : mdLoop n lines (i + 1) with
                      | none => rw [hm] at h; simp at h
                      | some rest =>
                        rw [hm] at h
                        simp at h
                        have := ih lines (i + 1) rest hm
                        subst h
                        simp only [List.length_cons]
                        omega
    · rw [if_neg hs] at h
      simp at h
      subst h
      simp

theorem mdLoop_blank : ∀ (fuel : Nat) (lines : List (List Char)) (i : Nat),
    (∀ l ∈ lines, (trimChars l).isEmpty) → lines.length - i < fuel →
    mdLoop fuel lines i = some [] := by
  intro fuel
  induction fuel with
  | zero => intro lines i _ hf; omega
  | succ n ih =>
    intro lines i hall hf
    rw [mdLoop]
    by_cases hs : i < lines.length
    · rw [if_pos hs]
      simp only []
      have hmem : lines.getD i [] ∈ lines := by
        rw [List.getD_eq_getElem lines [] hs]
        exact List.getElem_mem hs
      rw [if_pos (hall _ hmem)]
      exact ih lines (i + 1) hall (by omega)
    · rw [if_neg hs]

theorem chunkAux_len4500 (fuel : Nat) (l : List Char) (hl : l.length = 4500)
    (hf : 4500 < fuel) :
    ∃ cs, chunkAux fuel l = some cs ∧ cs.map List.length = [2000, 2000, 500] := by
  cases fuel with
  | zero => omega
  | succ f =>
    cases f with
    | zero => omega
    | succ f2 =>
      cases f2 with
      | zero => omega
      | succ f3 =>
        have hd1 : (l.drop NOTION_TEXT_LIMIT).length = 2500 := by
          simp [List.length_drop, hl, NOTION_TEXT_LIMIT]
        have hd2 : ((l.drop NOTION_TEXT_LIMIT).drop NOTION_TEXT_LIMIT).length = 500 := by
          simp [List.length_drop, hl, NOTION_TEXT_LIMIT]
        have hd3 : (((l.drop NOTION_TEXT_LIMIT).drop NOTION_TEXT_LIMIT).drop
            NOTION_TEXT_LIMIT) = [] := by
          apply List.length_eq_zero.mp
          simp [List.length_drop, hl, NOTION_TEXT_LIMIT]
        have hne1 : ¬ l.isEmpty := by
          rw [List.isEmpty_iff]
          intro hc
          rw [hc] at hl
          simp at hl
        have hne2 : ¬ (l.drop NOTION_TEXT_LIMIT).isEmpty := by
          rw [List.isEmpty_iff]
          intro hc
          rw [hc] at hd1
          simp at hd1
        have hne3 : ¬ ((l.drop NOTION_TEXT_LIMIT).drop NOTION_TEXT_LIMIT).isEmpty := by
          rw [List.isEmpty_iff]
          intro hc
          rw [hc] at hd2
          simp at hd2
        cases f3 with
        | zero => omega
        | succ f4 =>
          have e3 : chunkAux (f4 + 1) (((l.drop NOTION_TEXT_LIMIT).drop
              NOTION_TEXT_LIMIT).drop NOTION_TEXT_LIMIT) = some [] := by
            rw [hd3, chunkAux]
            simp
          have e2 : chunkAux (f4 + 2) ((l.drop NOTION_TEXT_LIMIT).drop
              NOTION_TEXT_LIMIT) =
              some [((l.drop NOTION_TEXT_LIMIT).drop NOTION_TEXT_LIMIT).take
                NOTION_TEXT_LIMIT] := by
            rw [chunkAux]
            rw [if_neg hne3, e3]
          have e1 : chunkAux (f4 + 3) (l.drop NOTION_TEXT_LIMIT) =
              some [(l.drop NOTION_TEXT_LIMIT).take NOTION_TEXT_LIMIT,
                ((l.drop NOTION_TEXT_LIMIT).drop NOTION_TEXT_LIMIT).take
                  NOTION_TEXT_LIMIT] := by
            rw [chunkAux]
            rw [if_neg hne2, e2]
          refine ⟨_, by rw [chunkAux]; rw [if_neg hne1, e1], ?_⟩
          simp only [List.map_cons, List.map_nil, List.length_take, hd1, hd2, hl]
          norm_num [NOTION_TEXT_LIMIT]

/-- The annotations argument is either absent or has at least one key
present; this holds at every call site of splitRichText in the source. -/
def annotsNormal : Option Annotations → Prop
  | some a => 0 < a.keyCount
  | none => True

theorem normAnnots_of_normal (a : Option Annotations) (h : annotsNormal a) :
    normAnnots a = a := by
  cases a with
  | none => rfl
  | some x =>
    rw [normAnnots]
    rw [annotsNormal] at h
    rw [if_pos h]

theorem closeAttempt_cons_ne (r1 : Char) (t : List Char) (h : r1 ≠ ']') :
    closeAttempt (r1 :: t) = none := by
  cases t with
  | nil => rfl
  | cons r2 t2 =>
    rw [closeAttempt]
    rw [if_neg]
    intro hc
    exact h hc.1

theorem linkGo_replicate : ∀ (n : Nat) (tail : List Char),
    linkGo (List.replicate (n + 1) 'a' ++ (']' :: '(' :: 'u' :: ')' :: tail)) =
      some (List.replicate (n + 1) 'a', ['u'], tail) := by
  intro n
  induction n with
  | zero =>
    intro tail
    simp only [List.replicate_succ, List.replicate_zero, List.cons_append,
      List.nil_append]
    rw [linkGo]
    rw [if_neg (by decide)]
    rw [closeAttempt]
    rw [if_pos (by exact ⟨rfl, rfl⟩)]
    rw [lazyCapture]
    rw [if_neg (by decide)]
    rw [if_pos (by simp [List.isPrefixOf])]
    simp
  | succ m ih =>
    intro tail
    have hrep : List.replicate (m + 2) 'a' ++ (']' :: '(' :: 'u' :: ')' :: tail) =
        'a' :: (List.replicate (m + 1) 'a' ++ (']' :: '(' :: 'u' :: ')' :: tail)) := by
      simp [List.replicate_succ]
    rw [hrep, linkGo]
    rw [if_neg (by decide)]
    have hca : closeAttempt (List.replicate (m + 1) 'a' ++
        (']' :: '(' :: 'u' :: ')' :: tail)) = none := by
      have : List.replicate (m + 1) 'a' ++ (']' :: '(' :: 'u' :: ')' :: tail) =
          'a' :: (List.replicate m 'a' ++ (']' :: '(' :: 'u' :: ')' :: tail)) := by
        simp [List.replicate_succ]
      rw [this]
      exact closeAttempt_cons_ne 'a' _ (by decide)
    rw [hca, ih tail]
    simp [List.replicate_succ]


set_option maxRecDepth 8000

theorem parseInline_longlink :
    parseInlineFormatting
        ('[' :: (List.replicate 2001 'a' ++ [']', '(', 'u', ')'])) =
      some [⟨List.replicate 2001 'a', some ⟨['u']⟩, none⟩] := by
  have h2001 : (2001 : Nat) = 2000 + 1 := rfl
  have hrep : List.replicate 2001 'a' ++ ([']', '(', 'u', ')'] : List Char) =
      'a' :: (List.replicate 2000 'a' ++ [']', '(', 'u', ')']) := by
    rw [h2001, List.replicate_succ]
    rfl
  have hb : matchBold ('[' :: (List.replicate 2001 'a' ++ [']', '(', 'u', ')'])) =
      none := by
    rw [hrep]
    simp only [matchBold]
    rw [if_neg (by decide)]
  have hst : matchStrike ('[' :: (List.replicate 2001 'a' ++ [']', '(', 'u', ')'])) =
      none := by
    rw [hrep]
    simp only [matchStrike]
    rw [if_neg (by decide)]
  have hic : matchICode ('[' :: (List.replicate 2001 'a' ++ [']', '(', 'u', ')'])) =
      none := by
    simp only [matchICode]
    rw [if_neg (by decide)]
  have hlk : matchLink ('[' :: (List.replicate 2001 'a' ++ [']', '(', 'u', ')'])) =
      some (List.replicate 2001 'a', ['u'], []) := by
    simp only [matchLink, if_true]
    rw [h2001]
    exact linkGo_replicate 2000 []
  have htry : tryAlternatives ('[' :: (List.replicate 2001 'a' ++ [']', '(', 'u', ')'])) =
      some (.mdlink (List.replicate 2001 'a') ['u'], []) := by
    rw [tryAlternatives, hb, hst, hic, hlk]
  have hscan : scanAux
      (('[' :: (List.replicate 2001 'a' ++ [']', '(', 'u', ')'])).length + 1) []
      ('[' :: (List.replicate 2001 'a' ++ [']', '(', 'u', ')'])) =
      some [⟨List.replicate 2001 'a', some ⟨['u']⟩, none⟩] := by
    rw [scanAux_succ_cons, htry]
    simp only []
    rw [show flushPlain [] = some [] from rfl]
    rw [show renderMatch (.mdlink (List.replicate 2001 'a') ['u']) =
      some [⟨List.replicate 2001 'a', some ⟨['u']⟩, none⟩] from rfl]
    rw [show ('[' :: (List.replicate 2001 'a' ++ [']', '(', 'u', ')'])).length =
      (List.replicate 2001 'a' ++ ([']', '(', 'u', ')'] : List Char)).length + 1
      from by rw [List.length_cons]]
    rw [scanAux_succ_nil]
    rw [show flushPlain [] = some [] from rfl]
    simp only []
    rfl
  rw [parseInlineFormatting]
  obtain ⟨t, ht⟩ := trimChars_cons_of_neg '['
    (List.replicate 2001 'a' ++ [']', '(', 'u', ')']) (by decide)
  rw [if_neg (by rw [ht]; simp)]
  rw [hscan]
  rfl

theorem parseInline_blank_long :
    parseInlineFormatting (List.replicate 2001 ' ') =
      some [⟨List.replicate 2001 ' ', none, none⟩] := by
  have htr : trimChars (List.replicate 2001 ' ') = [] := by
    apply trimChars_eq_nil_of_all
    intro c hc
    have := List.eq_of_mem_replicate hc
    subst this
    decide
  rw [parseInlineFormatting]
  rw [if_pos (by rw [htr]; simp)]

theorem splitOnNewline_no_newline : ∀ (s : List Char),
    (∀ c ∈ s, c ≠ '\n') → splitOnNewline s = [s] := by
  intro s
  induction s with
  | nil => intro _; rfl
  | cons c rest ih =>
    intro h
    rw [splitOnNewline]
    rw [if_neg (h c (by simp))]
    rw [ih (fun x hx => h x (by simp [hx]))]

theorem trim_of_prefix_hash (line : List Char) (u : List Char)
    (h : line = '#' :: u) : ∃ t, trimChars line = '#' :: t := by
  subst h
  exact trimChars_cons_of_neg '#' u (by decide)

theorem matchNumLine_hash (u : List Char) : matchNumLine ('#' :: u) = none := by
  simp only [matchNumLine]
  rw [List.dropWhile_cons_of_neg (by decide)]
  rw [List.takeWhile_cons_of_neg (by decide)]
  simp

theorem matchBulletLine_hash (u : List Char) : matchBulletLine ('#' :: u) = none := by
  simp only [matchBulletLine]
  rw [List.dropWhile_cons_of_neg (by decide)]
  cases u with
  | nil => rfl
  | cons d rest => simp

theorem isHorizontalRule_hash (t : List Char) : isHorizontalRule ('#' :: t) = false := by
  simp [isHorizontalRule]

theorem mdLoop_fence (n : Nat) (lines : List (List Char)) (i k : Nat)
    (hi : i < lines.length)
    (hfence : ("```".toList).isPrefixOf (trimChars (lines.getD i [])))
    (hik : i + 1 ≤ k) (hk : k ≤ lines.length)
    (hmid : ∀ t, i + 1 ≤ t → t < k →
      ¬ ("```".toList).isPrefixOf (trimChars (lines.getD t [])))
    (hterm : k = lines.length ∨
      ("```".toList).isPrefixOf (trimChars (lines.getD k []))) :
    ∃ rich, splitRichText
        (List.intercalate ['\n'] ((lines.drop (i + 1)).take (k - (i + 1))))
        none none = some rich ∧
      mdLoop (n + 1) lines i =
        (mdLoop n lines (if k < lines.length then k + 1 else k)).map
          (fun rest => NotionBlock.codeBlock rich
            (if (trimChars ((trimChars (lines.getD i [])).drop 3)).isEmpty
             then "plain text".toList
             else trimChars ((trimChars (lines.getD i [])).drop 3)) :: rest) := by
  obtain ⟨tfx, htf⟩ := List.isPrefixOf_iff_prefix.mp hfence
  have htrim : trimChars (lines.getD i []) = '`' :: ('`' :: '`' :: tfx) := by
    rw [← htf]
    rfl
  obtain ⟨rich, hsr⟩ := Option.isSome_iff_exists.mp
    (splitRichText_isSome
      (List.intercalate ['\n'] ((lines.drop (i + 1)).take (k - (i + 1)))) none none)
  refine ⟨rich, hsr, ?_⟩
  rw [mdLoop]
  rw [if_pos hi]
  simp only []
  rw [if_neg (by rw [htrim]; simp)]
  have hguard3 : ¬ ("### ".toList).isPrefixOf (lines.getD i []) := by
    intro hp
    obtain ⟨u, hu⟩ := List.isPrefixOf_iff_prefix.mp hp
    obtain ⟨t2, ht2⟩ := trim_of_prefix_hash (lines.getD i [])
      (('#' :: ('#' :: (' ' :: u)))) (by rw [← hu]; rfl)
    rw [htrim] at ht2
    simp at ht2
  have hguard2 : ¬ ("## ".toList).isPrefixOf (lines.getD i []) := by
    intro hp
    obtain ⟨u, hu⟩ := List.isPrefixOf_iff_prefix.mp hp
    obtain ⟨t2, ht2⟩ := trim_of_prefix_hash (lines.getD i [])
      ('#' :: (' ' :: u)) (by rw [← hu]; rfl)
    rw [htrim] at ht2
    simp at ht2
  have hguard1 : ¬ ("# ".toList).isPrefixOf (lines.getD i []) := by
    intro hp
    obtain ⟨u, hu⟩ := List.isPrefixOf_iff_prefix.mp hp
    obtain ⟨t2, ht2⟩ := trim_of_prefix_hash (lines.getD i [])
      (' ' :: u) (by rw [← hu]; rfl)
    rw [htrim] at ht2
    simp at ht2
  rw [if_neg hguard3, if_neg hguard2, if_neg hguard1]
  have hhr : ¬ isHorizontalRule (trimChars (lines.getD i [])) := by
    rw [htrim]
    simp [isHorizontalRule]
  rw [if_neg hhr]
  rw [if_pos hfence]
  have hcs := codeScan_spec (lines.length + 1) lines (i + 1) k hik hk hmid hterm
    (by omega)
  rw [hcs]
  simp only []
  rw [hsr]
  cases hm : mdLoop n lines (if k < lines.length then k + 1 else k) with
  | none => simp
  | some rest => simp

theorem mdLoop_fourhash (m : Nat) (rest : List Char)
    (hnl : ∀ c ∈ List.replicate (4 + m) '#' ++ ' ' :: rest, c ≠ '\n') :
    ∃ rich,
      parseInlineFormatting (List.replicate (4 + m) '#' ++ ' ' :: rest) =
        some rich ∧
      markdownToNotionBlocks (List.replicate (4 + m) '#' ++ ' ' :: rest) =
        some [NotionBlock.paragraph rich] := by
  have hshape : List.replicate (4 + m) '#' ++ ' ' :: rest =
      '#' :: '#' :: '#' :: '#' :: (List.replicate m '#' ++ ' ' :: rest) := by
    rw [List.replicate_add]
    rfl
  obtain ⟨rich, hp⟩ := Option.isSome_iff_exists.mp
    (parseInlineFormatting_isSome (List.replicate (4 + m) '#' ++ ' ' :: rest))
  refine ⟨rich, hp, ?_⟩
  rw [markdownToNotionBlocks]
  rw [splitOnNewline_no_newline _ hnl]
  rw [mdLoop]
  rw [if_pos (by simp)]
  have hline : ([List.replicate (4 + m) '#' ++ ' ' :: rest]).getD 0 [] =
      List.replicate (4 + m) '#' ++ ' ' :: rest := rfl
  rw [hline]
  obtain ⟨t2, ht2⟩ := trim_of_prefix_hash _ _ hshape
  rw [if_neg (by rw [ht2]; simp)]
  rw [if_neg (by rw [hshape]; simp [List.isPrefixOf])]
  rw [if_neg (by rw [hshape]; simp [List.isPrefixOf])]
  rw [if_neg (by rw [hshape]; simp [List.isPrefixOf])]
  rw [if_neg (by rw [ht2]; simp [isHorizontalRule_hash])]
  rw [if_neg (by rw [ht2]; simp [List.isPrefixOf])]
  rw [show matchNumLine (List.replicate (4 + m) '#' ++ ' ' :: rest) = none from by
    rw [hshape]; exact matchNumLine_hash _]
  simp only []
  rw [show matchBulletLine (List.replicate (4 + m) '#' ++ ' ' :: rest) = none from by
    rw [hshape]; exact matchBulletLine_hash _]
  simp only []
  rw [hp]
  rw [show mdLoop ([List.replicate (4 + m) '#' ++ ' ' :: rest]).length
      [List.replicate (4 + m) '#' ++ ' ' :: rest] (0 + 1) = some [] from rfl]

/-- C1 (amended): for every non-empty content string, every
absent-or-non-empty annotation set and every optional link,
splitRichText returns runs whose contents are at most 2000 characters,
whose in-order concatenation is exactly the original content, and which
all carry exactly the given annotations and link; a content of length
4500 yields runs of lengths 2000, 2000 and 500.  (The original claim
quantified over every content string; the empty content string is a
counterexample, as splitRichText returns a single bare run without the
annotations and link.) -/
theorem c1_splitRichText_correct (content : List Char)
    (annots : Option Annotations) (link : Option NotionLink)
    (hc : content ≠ []) (ha : annotsNormal annots) :
    ∃ rs, splitRichText content annots link = some rs ∧
      (∀ r ∈ rs, r.content.length ≤ NOTION_TEXT_LIMIT ∧ r.link = link ∧
        r.annotations = annots) ∧
      (rs.map RichText.content).flatten = content ∧
      (content.length = 4500 →
        rs.map (fun r => r.content.length) = [2000, 2000, 500]) := by
  obtain ⟨rs, hrs⟩ := Option.isSome_iff_exists.mp
    (splitRichText_isSome content annots link)
  obtain ⟨hjoin, hbound⟩ := splitRichText_join content annots link rs hrs
  have hmeta := splitRichText_meta content annots link rs hc hrs
  refine ⟨rs, hrs, ?_, hjoin, ?_⟩
  · intro r hr
    refine ⟨hbound r hr, (hmeta r hr).1, ?_⟩
    rw [(hmeta r hr).2, normAnnots_of_normal annots ha]
  · intro h45
    rw [splitRichText] at hrs
    rw [if_neg (by omega)] at hrs
    obtain ⟨cs, hcs, hlen⟩ := chunkAux_len4500 (content.length + 1) content h45
      (by omega)
    rw [hcs] at hrs
    simp only [Option.some.injEq] at hrs
    subst hrs
    rw [List.map_map]
    simpa [Function.comp_def] using hlen

/-- C1 counterexample: at the empty content string with a bold
annotation set and a link, splitRichText emits a single run that drops
both the annotations and the link, refuting the claim as stated for
every content string. -/
theorem c1_counterexample :
    splitRichText [] (some boldAnn) (some ⟨['u']⟩) = some [⟨[], none, none⟩] ∧
      ((⟨[], none, none⟩ : RichText).annotations ≠ some boldAnn ∧
       (⟨[], none, none⟩ : RichText).link ≠ some ⟨['u']⟩) :=
  ⟨rfl, by simp, by simp⟩

/-- C1 witness: the amended theorem applied at a concrete content of
length 4500 with a bold annotation and a concrete link. -/
theorem c1_witness :
    (List.replicate 4500 'x' ≠ ([] : List Char)) ∧
    annotsNormal (some boldAnn) ∧
    (∃ rs, splitRichText (List.replicate 4500 'x') (some boldAnn)
        (some ⟨['u']⟩) = some rs ∧
      (∀ r ∈ rs, r.content.length ≤ NOTION_TEXT_LIMIT ∧
        r.link = some ⟨['u']⟩ ∧ r.annotations = some boldAnn) ∧
      (rs.map RichText.content).flatten = List.replicate 4500 'x' ∧
      ((List.replicate 4500 'x').length = 4500 →
        rs.map (fun r => r.content.length) = [2000, 2000, 500])) :=
  ⟨by
    intro h
    have hlen := congrArg List.length h
    rw [List.length_replicate, List.length_nil] at hlen
    omega,
   (by decide : 0 < boldAnn.keyCount),
    c1_splitRichText_correct (List.replicate 4500 'x') (some boldAnn)
      (some ⟨['u']⟩)
      (by
        intro h
        have hlen := congrArg List.length h
        rw [List.length_replicate, List.length_nil] at hlen
        omega)
      (by decide : 0 < boldAnn.keyCount)⟩

/-- C2 (amended): for every input whose trimmed form is non-empty, every
run emitted by parseInlineFormatting that carries no link has content of
length at most 2000.  (The original claim covered all runs including
markdown-link and bare-URL runs; those are emitted whole without length
splitting and can exceed the limit, as can the verbatim run returned for
whitespace-only input.) -/
theorem c2_run_length_bound (text : List Char) (htr : trimChars text ≠ []) :
    ∃ rs, parseInlineFormatting text = some rs ∧
      ∀ r ∈ rs, r.link = none → r.content.length ≤ NOTION_TEXT_LIMIT := by
  have htx : text ≠ [] := by
    intro h
    subst h
    exact htr rfl
  rw [parseInlineFormatting]
  rw [if_neg (by
    simp only [Bool.or_eq_true, List.isEmpty_iff]
    rintro (h | h)
    · exact htx h
    · exact htr h)]
  obtain ⟨items, hsc⟩ := Option.isSome_iff_exists.mp
    (scanAux_isSome (text.length + 1) [] text (by omega))
  rw [hsc]
  simp only []
  have hne := scanAux_ne_nil (text.length + 1) [] text items
    (Or.inr (by simpa [List.isEmpty_iff] using htx)) hsc
  have hni : ¬ (items.isEmpty = true) := by
    simpa [List.isEmpty_iff] using hne
  rw [if_neg hni]
  exact ⟨items, rfl, scanAux_nolink_bound (text.length + 1) [] text items hsc⟩

/-- C2 counterexample: a markdown link whose text has 2001 characters is
emitted as a single run of length 2001 (exceeding the 2000 limit), and a
whitespace-only input of 2001 blanks is returned verbatim as a single
over-limit run without a link. -/
theorem c2_counterexample :
    parseInlineFormatting
        ('[' :: (List.replicate 2001 'a' ++ [']', '(', 'u', ')'])) =
      some [⟨List.replicate 2001 'a', some ⟨['u']⟩, none⟩] ∧
    NOTION_TEXT_LIMIT < (List.replicate 2001 'a').length ∧
    parseInlineFormatting (List.replicate 2001 ' ') =
      some [⟨List.replicate 2001 ' ', none, none⟩] ∧
    NOTION_TEXT_LIMIT < (List.replicate 2001 ' ').length :=
  ⟨parseInline_longlink, by rw [List.length_replicate]; decide,
   parseInline_blank_long, by rw [List.length_replicate]; decide⟩

/-- C2 witness: the amended bound applied at a concrete two-character
input. -/
theorem c2_witness :
    trimChars ("ab".toList) ≠ [] ∧
    (∃ rs, parseInlineFormatting ("ab".toList) = some rs ∧
      ∀ r ∈ rs, r.link = none → r.content.length ≤ NOTION_TEXT_LIMIT) :=
  ⟨by decide, c2_run_length_bound ("ab".toList) (by decide)⟩

/-- C3: the converter is total: on every input string it returns a block
list (the main loop, the nested-list collector, the code-fence scanner
and the inline scanner all terminate within their fuel, and no partial
operation fails). -/
theorem c3_total (markdown : List Char) :
    ∃ blocks, markdownToNotionBlocks markdown = some blocks :=
  Option.isSome_iff_exists.mp (markdownToNotionBlocks_isSome markdown)

/-- C4 (amended): on a line whose trimmed form starts with three
backticks, subsequent lines are collected verbatim until a line whose
trimmed form starts with three backticks (that line is consumed) or
input ends; the collected lines joined with newlines become one code
block whose language tag is the trimmed text after the opening
backticks, defaulting to "plain text" when empty; an unterminated fence
emits the block with everything up to end of input.  (The original claim
required the terminator's trimmed form to equal three backticks; the
code only tests the prefix, so a line such as three backticks followed
by text also terminates the fence.) -/
theorem c4_code_fence (n : Nat) (lines : List (List Char)) (i k : Nat)
    (hi : i < lines.length)
    (hfence : ("```".toList).isPrefixOf (trimChars (lines.getD i [])))
    (hik : i + 1 ≤ k) (hk : k ≤ lines.length)
    (hmid : ∀ t, i + 1 ≤ t → t < k →
      ¬ ("```".toList).isPrefixOf (trimChars (lines.getD t [])))
    (hterm : k = lines.length ∨
      ("```".toList).isPrefixOf (trimChars (lines.getD k []))) :
    ∃ rich, splitRichText
        (List.intercalate ['\n'] ((lines.drop (i + 1)).take (k - (i + 1))))
        none none = some rich ∧
      mdLoop (n + 1) lines i =
        (mdLoop n lines (if k < lines.length then k + 1 else k)).map
          (fun rest => NotionBlock.codeBlock rich
            (if (trimChars ((trimChars (lines.getD i [])).drop 3)).isEmpty
             then "plain text".toList
             else trimChars ((trimChars (lines.getD i [])).drop 3)) :: rest) :=
  mdLoop_fence n lines i k hi hfence hik hk hmid hterm

/-- C4 counterexample: a line reading three backticks followed by text
closes an open fence (the code only tests the trimmed prefix), so the
input does not produce the single code block the claim predicts. -/
theorem c4_counterexample :
    markdownToNotionBlocks ("```\na\n```x\nb".toList) =
      some [NotionBlock.codeBlock [⟨['a'], none, none⟩] ("plain text".toList),
        NotionBlock.paragraph [⟨['b'], none, none⟩]] ∧
    markdownToNotionBlocks ("```\na\n```x\nb".toList) ≠
      some [NotionBlock.codeBlock [⟨"a\n```x\nb".toList, none, none⟩]
        ("plain text".toList)] := by
  refine ⟨rfl, ?_⟩
  rw [show markdownToNotionBlocks ("```\na\n```x\nb".toList) =
    some [NotionBlock.codeBlock [⟨['a'], none, none⟩] ("plain text".toList),
      NotionBlock.paragraph [⟨['b'], none, none⟩]] from rfl]
  simp

/-- C4 witness: the amended fence theorem applied to a concrete
four-line input whose third line is three backticks followed by text. -/
theorem c4_witness :
    (0 < (splitOnNewline ("```js\nx\n``` end\nafter".toList)).length) ∧
    (∃ rich, splitRichText
        (List.intercalate ['\n']
          (((splitOnNewline ("```js\nx\n``` end\nafter".toList)).drop (0 + 1)).take
            (2 - (0 + 1)))) none none = some rich ∧
      mdLoop (4 + 1) (splitOnNewline ("```js\nx\n``` end\nafter".toList)) 0 =
        (mdLoop 4 (splitOnNewline ("```js\nx\n``` end\nafter".toList))
          (if 2 < (splitOnNewline ("```js\nx\n``` end\nafter".toList)).length
           then 2 + 1 else 2)).map
          (fun rest => NotionBlock.codeBlock rich
            (if (trimChars ((trimChars
                ((splitOnNewline ("```js\nx\n``` end\nafter".toList)).getD 0 [])).drop
                3)).isEmpty
             then "plain text".toList
             else trimChars ((trimChars
                ((splitOnNewline ("```js\nx\n``` end\nafter".toList)).getD 0 [])).drop
                3)) :: rest)) :=
  ⟨by decide,
   c4_code_fence 4 (splitOnNewline ("```js\nx\n``` end\nafter".toList)) 0 2
     (by decide) (by decide) (by decide) (by decide)
     (fun t ht1 ht2 => by
       have : t = 1 := by omega
       subst this
       decide)
     (Or.inr (by decide))⟩

/-- C5: during nested-list collection, a blank line is skipped only if
the following non-blank line is a list item indented strictly deeper
than the parent (the code tests the immediately following line, which in
the skipping case is that non-blank line); in every other case the blank
line terminates collection with nextIndex at the blank line's
position. -/
theorem c5_blank_line (fuel : Nat) (lines : List (List Char)) (s p : Nat)
    (hs : s < lines.length) (hb : (trimChars (lines.getD s [])).isEmpty) :
    (¬ followCond lines s p →
      collectNestedListItems (fuel + 1) lines s p = some ([], s)) ∧
    (skipCond lines s p →
      collectNestedListItems (fuel + 1) lines s p =
        collectNestedListItems fuel lines (s + 1) p) := by
  constructor
  · intro hnf
    apply collect_blank_stop fuel lines s p hs hb
    intro hsk
    exact hnf (skipCond_imp_followCond lines s p hsk)
  · exact collect_blank_skip fuel lines s p hs hb

/-- C5 witness: the blank-line dichotomy applied at a concrete two-line
sequence whose first line is blank and whose second is a deeper bullet
item. -/
theorem c5_witness :
    (0 < ([[], [' ', '-', ' ', 'x']] : List (List Char)).length) ∧
    ((¬ followCond [[], [' ', '-', ' ', 'x']] 0 0 →
      collectNestedListItems 2 [[], [' ', '-', ' ', 'x']] 0 0 = some ([], 0)) ∧
    (skipCond [[], [' ', '-', ' ', 'x']] 0 0 →
      collectNestedListItems 2 [[], [' ', '-', ' ', 'x']] 0 0 =
        collectNestedListItems 1 [[], [' ', '-', ' ', 'x']] 1 0)) :=
  ⟨by decide, c5_blank_line 1 [[], [' ', '-', ' ', 'x']] 0 0 (by decide) (by decide)⟩

/-- C6: the conversion terminates on every string, the number of
top-level blocks never exceeds the number of lines, and a string whose
lines are all blank (including the empty string) yields no blocks. -/
theorem c6_bounds (md : List Char) :
    (∃ bs, markdownToNotionBlocks md = some bs ∧
      bs.length ≤ (splitOnNewline md).length) ∧
    ((∀ l ∈ splitOnNewline md, trimChars l = []) →
      markdownToNotionBlocks md = some []) := by
  constructor
  · obtain ⟨bs, hbs⟩ := Option.isSome_iff_exists.mp
      (markdownToNotionBlocks_isSome md)
    refine ⟨bs, hbs, ?_⟩
    rw [markdownToNotionBlocks] at hbs
    have := mdLoop_count _ _ _ _ hbs
    omega
  · intro hall
    rw [markdownToNotionBlocks]
    apply mdLoop_blank
    · intro l hl
      rw [List.isEmpty_iff]
      exact hall l hl
    · omega

/-- C6 witness: the blank-input clause applied to a string of blank
lines. -/
theorem c6_witness :
    (∀ l ∈ splitOnNewline ("\n \n".toList), trimChars l = []) ∧
    markdownToNotionBlocks ("\n \n".toList) = some [] :=
  ⟨by decide, (c6_bounds ("\n \n".toList)).2 (by decide)⟩

/-- C7: the fixed alternative order resolves overlaps; the bold/italic
example converts to one paragraph with exactly the three expected runs,
and a doubled-asterisk span is taken by the bold alternative rather than
italic. -/
theorem c7_priority :
    markdownToNotionBlocks ("**bold** and *italic*".toList) =
      some [NotionBlock.paragraph
        [⟨"bold".toList, none, some boldAnn⟩,
         ⟨" and ".toList, none, none⟩,
         ⟨"italic".toList, none, some italicAnn⟩]] ∧
    parseInlineFormatting ("**x**".toList) =
      some [⟨['x'], none, some boldAnn⟩] :=
  ⟨rfl, rfl⟩

/-- C8: the two-line numbered-parent/bulleted-child input produces one
numbered list item whose children are exactly one bulleted item with the
single unformatted run Child. -/
theorem c8_nested_list :
    markdownToNotionBlocks ("1. Parent\n   - Child".toList) =
      some [NotionBlock.numberedListItem [⟨"Parent".toList, none, none⟩]
        [NotionBlock.bulletedListItem [⟨"Child".toList, none, none⟩] []]] := rfl

/-- C10: a line of four or more hash marks followed by a space matches
no heading rule and falls through to the paragraph rule, its
inline-formatted content keeping the hash characters. -/
theorem c10_fourhash (m : Nat) (rest : List Char)
    (hnl : ∀ c ∈ List.replicate (4 + m) '#' ++ ' ' :: rest, c ≠ '\n') :
    ∃ rich,
      parseInlineFormatting (List.replicate (4 + m) '#' ++ ' ' :: rest) =
        some rich ∧
      markdownToNotionBlocks (List.replicate (4 + m) '#' ++ ' ' :: rest) =
        some [NotionBlock.paragraph rich] :=
  mdLoop_fourhash m rest hnl

/-- C10 witness: the four-hash input produces a paragraph carrying the
hash characters verbatim. -/
theorem c10_witness :
    ("#### Title".toList = List.replicate (4 + 0) '#' ++ ' ' :: "Title".toList) ∧
    (∃ rich,
      parseInlineFormatting (List.replicate (4 + 0) '#' ++ ' ' :: "Title".toList) =
        some rich ∧
      markdownToNotionBlocks (List.replicate (4 + 0) '#' ++ ' ' :: "Title".toList) =
        some [NotionBlock.paragraph rich]) ∧
    markdownToNotionBlocks ("#### Title".toList) =
      some [NotionBlock.paragraph [⟨"#### Title".toList, none, none⟩]] :=
  ⟨rfl, c10_fourhash 0 ("Title".toList) (by decide), rfl⟩

/-- C9: the nested-list collector's resume index is at least the start
index, and the line it stops at (when non-blank) is never a list item
indented strictly deeper than the parent, so the stop line is left
unconsumed for the caller. -/
theorem c9_cursor (fuel : Nat) (lines : List (List Char)) (s p : Nat)
    (ch : List NotionBlock) (nxt : Nat)
    (h : collectNestedListItems fuel lines s p = some (ch, nxt)) :
    s ≤ nxt ∧ (nxt < lines.length →
      ¬ (trimChars (lines.getD nxt [])).isEmpty →
      ∀ b ind c, listLineMatchB (lines.getD nxt []) = some (b, ind, c) →
        ind ≤ p) :=
  collect_break fuel lines s p ch nxt h

/-- C9 witness: the collector applied at a concrete one-line sequence
whose line is a bullet at the parent's own indentation, which is not
consumed. -/
theorem c9_witness :
    collectNestedListItems 2 [['-', ' ', 'a']] 0 0 = some ([], 0) ∧
    (0 ≤ 0 ∧ (0 < ([['-', ' ', 'a']] : List (List Char)).length →
      ¬ (trimChars (([['-', ' ', 'a']] : List (List Char)).getD 0 [])).isEmpty →
      ∀ b ind c,
        listLineMatchB (([['-', ' ', 'a']] : List (List Char)).getD 0 []) =
          some (b, ind, c) → ind ≤ 0)) :=
  ⟨rfl, c9_cursor 2 [['-', ' ', 'a']] 0 0 [] 0 rfl⟩
